import Mathlib

/-!
# Verification of the Mini Gantt scheduling engine (src/src/App.tsx)

Shallow embedding of the temporal scheduling engine of the Gantt chart
application.  Calendar dates at day granularity are represented as integer
day numbers (days since 1970-01-01, the JavaScript epoch), so that
`parseDate`/`fmt` string round-trips become the identity, `addDays d n`
becomes `d + n`, `diffInDays a b` becomes `a - b`, date comparison becomes
integer comparison, and the sentinel `new Date(0)` of the violation scan
becomes the day number `0` (local midnight of 1970-01-01 in a UTC
environment has `getTime() = 0`).  Pixel coordinates are integers; the one
floating-point operation of the source, `Math.round(x / dayWidth)`, is
modelled exactly as `⌊x / w + 1/2⌋` (JavaScript `Math.round` rounds half
toward +∞), i.e. as `(2*x + w).fdiv (2*w)`.
-/

namespace Gantt

/-- The `Task` record of the source (`color` is cosmetic and outside the
engine, so it is not carried).  `start`/`end` are the `'YYYY-MM-DD'`
strings of the source, embedded as day numbers. -/
structure Task where
  id : String
  name : String
  start : Int
  «end» : Int
  deps : List String
deriving DecidableEq

/-- Day number of the Gregorian date y-m-d (days since 1970-01-01),
following the standard civil-from-days correspondence.  Used to write the
concrete date strings appearing in the spec scenario as day numbers. -/
def daysFromCivil (y m d : Int) : Int :=
  let y2 : Int := if m ≤ 2 then y - 1 else y
  let era : Int := (if 0 ≤ y2 then y2 else y2 - 399).fdiv 400
  let yoe : Int := y2 - era * 400
  let mp : Int := (m + 9) % 12
  let doy : Int := (153 * mp + 2).fdiv 5 + d - 1
  let doe : Int := yoe * 365 + yoe.fdiv 4 - yoe.fdiv 100 + doy
  era * 146097 + doe - 719468

/-- The three zoom presets (`ZOOMS` in the source). -/
inductive ZoomKey where
  | day
  | week
  | month
deriving DecidableEq

/-- `const ZOOMS = { day: 24, week: 10, month: 4 }`: pixels per day. -/
def ZOOMS : ZoomKey → Int
  | .day => 24
  | .week => 10
  | .month => 4

/-- `clampDateStr(s, min, max)` of the source, on day numbers. -/
def clampDateStr (s mn mx : Int) : Int :=
  if s < mn then mn else if mx < s then mx else s

/-- `dateToX(s) = diffInDays(parseDate(s), minDate) * dayWidth`, with
origin `o` (the parsed `minDateStr`) and day width `w`. -/
def dateToX (o w d : Int) : Int := (d - o) * w

/-- `xToDate(x) = fmt(addDays(minDate, Math.round(x / dayWidth)))`.
`Math.round q = ⌊q + 1/2⌋`, so on integer pixels this is
`o + ⌊(2*x + w) / (2*w)⌋` (floor division). -/
def xToDate (o w x : Int) : Int := o + (2 * x + w).fdiv (2 * w)

/-- The `[minDateStr, maxDateStr]` memo: for a non-empty list, the fold
minimum of all `start`s minus 7 and the fold maximum of all `end`s
plus 21; for an empty list, `[today, today + 30]`. -/
def rangeOfTasks (ts : List Task) (today : Int) : Int × Int :=
  match ts with
  | [] => (today, today + 30)
  | t0 :: _ =>
    let mn := ts.foldl (fun acc t => if t.start < acc then t.start else acc) t0.start
    let mx := ts.foldl (fun acc t => if acc < t.«end» then t.«end» else acc) t0.«end»
    (mn - 7, mx + 21)

/-- Lookup in a JavaScript `Map` built by `new Map(tasks.map(t => [t.id, t]))`:
for duplicate ids the last entry wins, hence the left fold. -/
def mapGet (ts : List Task) (k : String) : Option Task :=
  ts.foldl (fun acc t => if t.id = k then some t else acc) none

/-- The shared reduce of `violations` and `autoSchedule`:
`deps.reduce((acc, pid) => { const p = map.get(pid); if (!p) return acc;
return p.end > acc ? p.end : acc }, init)`. -/
def maxDepEnd (ts : List Task) (deps : List String) (init : Int) : Int :=
  deps.foldl (fun acc pid =>
    match mapGet ts pid with
    | none => acc
    | some p => if acc < p.«end» then p.«end» else acc) init

/-- The per-task test of the `violations` memo: the reduce starts from
`new Date(0)` (day 0) and the task is flagged when
`latestEnd.getTime() > 0 && parseDate(t.start) < latestEnd`. -/
def violatedB (ts : List Task) (t : Task) : Bool :=
  let latestEnd := maxDepEnd ts t.deps 0
  decide (0 < latestEnd) && decide (t.start < latestEnd)

/-- The violation set (a `Set<string>` in the source): ids of flagged tasks. -/
def violations (ts : List Task) : List String :=
  (ts.filter (fun t => violatedB ts t)).map (·.id)

/-- The `end` dates of the resolvable predecessors of a `deps` list. -/
def resolvedEndsOf (ts : List Task) (deps : List String) : List Int :=
  deps.filterMap (fun pid => (mapGet ts pid).map (·.«end»))

/-- Modelled from the spec: "for each task with at least one resolvable
predecessor, compute the maximum `end` date among those predecessors; if
the task's `start` is strictly earlier than that maximum, mark it
violated."  Stated as: some resolvable predecessor end exceeds `start`
(equivalent to having a non-empty resolvable predecessor list whose
maximum end exceeds `start`). -/
def specViolatedB (ts : List Task) (t : Task) : Bool :=
  (resolvedEndsOf ts t.deps).any (fun e => decide (t.start < e))

/-- Modelled from the spec: membership of an id in the spec's violation set. -/
def specViolationSet (ts : List Task) (x : String) : Prop :=
  ∃ t ∈ ts, t.id = x ∧ specViolatedB ts t = true

/-- A task with no resolvable predecessor (for the spec's
"min predecessor-free start"). -/
def predFree (ts : List Task) (t : Task) : Bool :=
  decide (resolvedEndsOf ts t.deps = [])

/-- Modelled from the spec: "The visible window is derived from the task
list: min predecessor-free start minus a fixed look-back margin (7 days),
max end plus a fixed look-ahead margin (21 days); if the task list is
empty, defaults to [today, today+30]."  `none` when no predecessor-free
task exists (the spec leaves that case undefined). -/
def specRange (ts : List Task) (today : Int) : Option (Int × Int) :=
  match ts with
  | [] => some (today, today + 30)
  | _ :: _ =>
    match ((ts.filter (fun t => predFree ts t)).map (·.start)).min?,
          (ts.map (·.«end»)).max? with
    | some mn, some mx => some (mn - 7, mx + 21)
    | _, _ => none

/-- The resolvable-predecessor edge list, in build order: for each task
`t` (in list order) and each `p ∈ t.deps` (in order) with `p` an existing
id, the edge `(p, t.id)` (predecessor → successor). -/
def resolvableEdges (ts : List Task) : List (String × String) :=
  ts.flatMap (fun t =>
    (t.deps.filter (fun p => decide (p ∈ ts.map (·.id)))).map (fun p => (p, t.id)))

/-- The edge relation of the resolvable-predecessor graph. -/
def edgeRel (ts : List Task) (u v : String) : Prop :=
  (u, v) ∈ resolvableEdges ts

/-- Acyclicity of the resolvable-predecessor graph: no non-empty path
from a node back to itself. -/
def Acyclic (ts : List Task) : Prop :=
  ∀ n, ¬ Relation.TransGen (edgeRel ts) n n

/-- Pointwise update of an `Int`-valued map (a `Map.set` call). -/
def updF (f : String → Int) (k : String) (v : Int) : String → Int :=
  fun x => if x = k then v else f x

/-- Pointwise update of a list-valued map (a `Map.set` call). -/
def updG (g : String → List String) (k : String) (v : List String) :
    String → List String :=
  fun x => if x = k then v else g x

/-- Recording one resolvable edge `(p, succ)` during the adjacency build:
`graph.get(p).push(t.id); indeg.set(t.id, indeg.get(t.id) + 1)`. -/
def edgeInsert (st : (String → List String) × (String → Int)) (e : String × String) :
    (String → List String) × (String → Int) :=
  (updG st.1 e.1 (st.1 e.1 ++ [e.2]), updF st.2 e.2 (st.2 e.2 + 1))

/-- The adjacency build of `topoSort`: successor lists and in-degrees.
JavaScript `Map`s keyed by task id become total functions (absent keys
map to `[]` / `0`, matching `graph.get(x) || []` and `indeg.get(n) || 0`). -/
def buildGraph (ts : List Task) : (String → List String) × (String → Int) :=
  let ids := ts.map (·.id)
  ts.foldl (fun st t =>
    t.deps.foldl (fun st2 p =>
      if p ∈ ids then edgeInsert st2 (p, t.id) else st2) st)
    (fun _ => [], fun _ => 0)

/-- Processing the successor list of a dequeued node: each successor's
in-degree is decremented (`indeg.get(n) - 1`, which may go negative) and
it is pushed onto the live queue `q` exactly when the decremented value
is 0.  Returns the new in-degree map and queue. -/
def processSuccs (indeg : String → Int) (q : List String) (succs : List String) :
    (String → Int) × List String :=
  succs.foldl (fun st n =>
    let d := st.1 n - 1
    (updF st.1 n d, if d = 0 then st.2 ++ [n] else st.2)) (indeg, q)

/-- The `while (q.length)` loop of Kahn's algorithm, with a fuel bound.
Each iteration dequeues the front of `q` (`q.shift()`), appends it to
`out`, and processes its successors.  (The fuel passed by `topoSort` is an
upper bound on the possible number of dequeues, so the loop always drains
`q`; this is proved, not assumed, in the lemmas below.) -/
def kahnLoop (g : String → List String) :
    Nat → (String → Int) → List String → List String → List String
  | 0, _, _, out => out
  | fuel + 1, indeg, q, out =>
    match q with
    | [] => out
    | x :: q2 =>
      let pr := processSuccs indeg q2 (g x)
      kahnLoop g fuel pr.1 pr.2 (out ++ [x])

/-- `topoSort` of the source: Kahn's algorithm with FIFO queue seeded by
the in-degree-0 ids in list order, falling back to the original id list
when the output is incomplete (cycle). -/
def topoSort (ts : List Task) : List String :=
  let ids := ts.map (·.id)
  let st := buildGraph ts
  let q0 := ids.filter (fun i => decide (st.2 i = 0))
  let out := kahnLoop st.1 (2 * ids.length + 1) st.2 q0 []
  if out.length = ids.length then out else ids

/-- One `order.forEach` step of `autoSchedule`: look the id up in the
working copy, take the latest resolvable-predecessor end (seeded with the
task's own current start), and when it exceeds the current start move the
task, preserving duration and clamping both dates to the visible range.
(`nextMap.get(pid) || idToTask.get(pid)` always resolves inside the
working copy, whose key set equals the original's.) -/
def autoScheduleStep (mn mx : Int) (cur : List Task) (i : String) : List Task :=
  match mapGet cur i with
  | none => cur
  | some t =>
    let duration := t.«end» - t.start
    let latestEnd := maxDepEnd cur t.deps t.start
    if t.start < latestEnd then
      cur.map (fun u =>
        if u.id = i then
          { u with start := clampDateStr latestEnd mn mx,
                   «end» := clampDateStr (latestEnd + duration) mn mx }
        else u)
    else cur

/-- `autoSchedule` of the source, with the visible range `[mn, mx]`
passed in (the component reads it from the `[minDateStr, maxDateStr]`
memo, i.e. `rangeOfTasks`). -/
def autoSchedule (ts : List Task) (mn mx : Int) : List Task :=
  (topoSort ts).foldl (autoScheduleStep mn mx) ts

/-- The three drag kinds (`"move" | "resize-left" | "resize-right"`). -/
inductive DragKind where
  | move
  | resizeLeft
  | resizeRight
deriving DecidableEq

/-- The non-null `DragState`: dragged id, kind, and the `(start, end)`
snapshot taken at mouse-down.  (`startX` is absorbed into the integer
displacement `ddays = Math.round(dx / dayWidth)` passed to `onMove`.) -/
structure DragState where
  id : String
  kind : DragKind
  origStart : Int
  origEnd : Int

/-- The `onMove` updater (lines 160–187 of the source): maps over the
task list, rewriting only the dragged task.  `mn`/`mx` are the parsed
`minDateStr`/`maxDateStr` (also the `xToDate` origin), `w` the day
width, `dd` the integer day displacement. -/
def onMove (mn mx w : Int) (drag : DragState) (dd : Int) (ts : List Task) : List Task :=
  ts.map (fun t =>
    if t.id = drag.id then
      match drag.kind with
      | .move =>
        let span := drag.origEnd - drag.origStart
        let ns := xToDate mn w (dateToX mn w drag.origStart + dd * w)
        let ne := ns + span
        { t with start := clampDateStr ns mn mx, «end» := clampDateStr ne mn mx }
      | .resizeLeft =>
        let ns0 := xToDate mn w (dateToX mn w drag.origStart + dd * w)
        let ne := drag.origEnd
        let ns := if ne - 1 ≤ ns0 then ne - 1 else ns0
        { t with start := clampDateStr ns mn mx }
      | .resizeRight =>
        let ne0 := xToDate mn w (dateToX mn w drag.origEnd + dd * w)
        let ns := drag.origStart
        let ne := if ne0 ≤ ns + 1 then ns + 1 else ne0
        { t with «end» := clampDateStr ne mn mx }
    else t)

/-- `toggleDep(from, to)` of the source: a no-op on a self edge, else
toggles membership of `frm` in the deps of the task with id `to`. -/
def toggleDep (ts : List Task) (frm toId : String) : List Task :=
  if frm = toId then ts
  else ts.map (fun t =>
    if t.id = toId then
      if frm ∈ t.deps then { t with deps := t.deps.filter (fun d => decide (d ≠ frm)) }
      else { t with deps := t.deps ++ [frm] }
    else t)

/-- Occurrence count of `m` in a successor list (edge multiplicity). -/
def occs (l : List String) (m : String) : Nat :=
  l.countP (fun s => decide (s = m))

/-- Multiplicity of the edge `(x, n)` in an edge list. -/
def edgeCount (E : List (String × String)) (x n : String) : Nat :=
  E.countP (fun e => decide (e.1 = x) && decide (e.2 = n))

/-- The raw Kahn-loop output of `topoSort`, before the completeness check
(`out.length === ids.length ? out : ids`). -/
def kahnOut (ts : List Task) : List String :=
  let ids := ts.map (·.id)
  let st := buildGraph ts
  let q0 := ids.filter (fun i => decide (st.2 i = 0))
  kahnLoop st.1 (2 * ids.length + 1) st.2 q0 []

/-- In-edge count (with multiplicity) of `n` from sources not yet output:
the quantity the working in-degree map tracks during the Kahn loop. -/
def countInEdges (E : List (String × String)) (out : List String) (n : String) : Int :=
  ((E.filter (fun e => decide (e.2 = n ∧ e.1 ∉ out))).length : Int)

/-- The Kahn loop invariant over edge list `E` and node list `V`:
queue and output are disjoint known nodes without duplicates, the
in-degree map counts in-edges from not-yet-output sources, enqueued or
output nodes have all in-edge sources already output, unreached nodes
have positive in-degree, and the output never orders an edge backwards
(nor contains a self-loop endpoint). -/
def KahnInv (E : List (String × String)) (V : List String)
    (indeg : String → Int) (q out : List String) : Prop :=
  (q ++ out).Nodup ∧
  (∀ n ∈ q ++ out, n ∈ V) ∧
  (∀ n, indeg n = countInEdges E out n) ∧
  (∀ e ∈ E, e.2 ∈ q ++ out → e.1 ∈ out) ∧
  (∀ n ∈ V, n ∉ q ++ out → 1 ≤ indeg n) ∧
  out.Pairwise (fun a b => (b, a) ∉ E) ∧
  (∀ n ∈ out, (n, n) ∉ E)

/-- `{id:"X", start:"2024-02-01", end:"2024-02-05", deps:[]}` of the spec
scenario (day numbers computed by `daysFromCivil`). -/
def taskX : Task :=
  { id := "X", name := "X", start := daysFromCivil 2024 2 1,
    «end» := daysFromCivil 2024 2 5, deps := [] }

/-- `{id:"Y", start:"2024-02-02", end:"2024-02-06", deps:["X"]}` of the
spec scenario. -/
def taskY : Task :=
  { id := "Y", name := "Y", start := daysFromCivil 2024 2 2,
    «end» := daysFromCivil 2024 2 6, deps := ["X"] }

/-- The task list of the spec scenario (claim C2). -/
def scenarioTasks : List Task := [taskX, taskY]

/-- A task list with pre-1970 dates: "B" depends on "A", and
B.start (1969-06-15, day -200) is strictly before A.end (1969-09-23,
day -100), yet every parsed date has non-positive `getTime()`. -/
def preEpochTasks : List Task :=
  [ { id := "A", name := "A", start := -300, «end» := -100, deps := [] },
    { id := "B", name := "B", start := -200, «end» := -50, deps := ["A"] } ]

/-- A task list in which a task *with* a predecessor ("B") holds the
global minimum start: "A" is predecessor-free with start 10, "B" depends
on "A" with start 0. -/
def depMinTasks : List Task :=
  [ { id := "A", name := "A", start := 10, «end» := 20, deps := [] },
    { id := "B", name := "B", start := 0, «end» := 5, deps := ["A"] } ]

/-- A two-task acyclic chain ("B" after "A") with a violation, used as a
concrete witness input. -/
def chainTasks : List Task :=
  [ { id := "A", name := "A", start := 0, «end» := 10, deps := [] },
    { id := "B", name := "B", start := 5, «end» := 12, deps := ["A"] } ]

/-- A two-task dependency cycle ("A" ↔ "B"), used as a concrete witness
input for the cycle fallback. -/
def loopTasks : List Task :=
  [ { id := "A", name := "A", start := 0, «end» := 5, deps := ["B"] },
    { id := "B", name := "B", start := 6, «end» := 9, deps := ["A"] } ]

-- A first sanity theorem (claim C10): toggling a self dependency is the
-- identity.

/-- C10: for every task list and every id `x`, `toggleDep ts x x = ts`:
the dependency toggle never creates a self-dependency edge. -/
theorem toggleDep_self_eq (ts : List Task) (x : String) : toggleDep ts x x = ts := by
  simp [toggleDep]

-- ## Generic facts about the max/min folds of the source

theorem foldl_max_init_le {α : Type} (f : α → Int) (l : List α) (a : Int) :
    a ≤ l.foldl (fun acc t => if acc < f t then f t else acc) a := by
  induction l generalizing a with
  | nil => exact le_refl a
  | cons t l ih =>
    simp only [List.foldl_cons]
    by_cases h : a < f t
    · rw [if_pos h]; exact le_trans (le_of_lt h) (ih (f t))
    · rw [if_neg h]; exact ih a

theorem foldl_max_mem_le {α : Type} (f : α → Int) (l : List α) (a : Int)
    (t : α) (ht : t ∈ l) :
    f t ≤ l.foldl (fun acc t => if acc < f t then f t else acc) a := by
  induction l generalizing a with
  | nil => cases ht
  | cons u l ih =>
    simp only [List.foldl_cons]
    rcases List.mem_cons.mp ht with h | h
    · subst h
      refine le_trans ?_ (foldl_max_init_le f l _)
      by_cases hc : a < f t
      · rw [if_pos hc]
      · rw [if_neg hc]; exact le_of_not_lt hc
    · exact ih _ h

theorem foldl_max_cases {α : Type} (f : α → Int) (l : List α) (a : Int) :
    l.foldl (fun acc t => if acc < f t then f t else acc) a = a ∨
      ∃ t ∈ l, l.foldl (fun acc t => if acc < f t then f t else acc) a = f t := by
  induction l generalizing a with
  | nil => exact Or.inl rfl
  | cons u l ih =>
    simp only [List.foldl_cons]
    by_cases h : a < f u
    · rw [if_pos h]
      rcases ih (f u) with h2 | ⟨t, ht, h2⟩
      · exact Or.inr ⟨u, List.mem_cons_self u l, h2⟩
      · exact Or.inr ⟨t, List.mem_cons_of_mem u ht, h2⟩
    · rw [if_neg h]
      rcases ih a with h2 | ⟨t, ht, h2⟩
      · exact Or.inl h2
      · exact Or.inr ⟨t, List.mem_cons_of_mem u ht, h2⟩

theorem foldl_min_init_le {α : Type} (f : α → Int) (l : List α) (a : Int) :
    l.foldl (fun acc t => if f t < acc then f t else acc) a ≤ a := by
  induction l generalizing a with
  | nil => exact le_refl a
  | cons t l ih =>
    simp only [List.foldl_cons]
    by_cases h : f t < a
    · rw [if_pos h]; exact le_trans (ih (f t)) (le_of_lt h)
    · rw [if_neg h]; exact ih a

theorem foldl_min_le_mem {α : Type} (f : α → Int) (l : List α) (a : Int)
    (t : α) (ht : t ∈ l) :
    l.foldl (fun acc t => if f t < acc then f t else acc) a ≤ f t := by
  induction l generalizing a with
  | nil => cases ht
  | cons u l ih =>
    simp only [List.foldl_cons]
    rcases List.mem_cons.mp ht with h | h
    · subst h
      refine le_trans (foldl_min_init_le f l _) ?_
      by_cases hc : f t < a
      · rw [if_pos hc]
      · rw [if_neg hc]; exact le_of_not_lt hc
    · exact ih _ h

theorem foldl_min_cases {α : Type} (f : α → Int) (l : List α) (a : Int) :
    l.foldl (fun acc t => if f t < acc then f t else acc) a = a ∨
      ∃ t ∈ l, l.foldl (fun acc t => if f t < acc then f t else acc) a = f t := by
  induction l generalizing a with
  | nil => exact Or.inl rfl
  | cons u l ih =>
    simp only [List.foldl_cons]
    by_cases h : f u < a
    · rw [if_pos h]
      rcases ih (f u) with h2 | ⟨t, ht, h2⟩
      · exact Or.inr ⟨u, List.mem_cons_self u l, h2⟩
      · exact Or.inr ⟨t, List.mem_cons_of_mem u ht, h2⟩
    · rw [if_neg h]
      rcases ih a with h2 | ⟨t, ht, h2⟩
      · exact Or.inl h2
      · exact Or.inr ⟨t, List.mem_cons_of_mem u ht, h2⟩

-- ## Facts about `mapGet`

theorem mapGet_go_eq_some {ts : List Task} {acc : Option Task} {k : String} {t : Task}
    (h : ts.foldl (fun acc t => if t.id = k then some t else acc) acc = some t) :
    acc = some t ∨ (t ∈ ts ∧ t.id = k) := by
  induction ts generalizing acc with
  | nil => exact Or.inl h
  | cons u ts ih =>
    simp only [List.foldl_cons] at h
    rcases ih h with h2 | ⟨hm, hk⟩
    · by_cases hu : u.id = k
      · rw [if_pos hu] at h2
        obtain rfl : u = t := Option.some.inj h2
        exact Or.inr ⟨List.mem_cons_self u ts, hu⟩
      · rw [if_neg hu] at h2
        exact Or.inl h2
    · exact Or.inr ⟨List.mem_cons_of_mem u hm, hk⟩

theorem mapGet_eq_some {ts : List Task} {k : String} {t : Task}
    (h : mapGet ts k = some t) : t ∈ ts ∧ t.id = k := by
  rcases mapGet_go_eq_some h with h2 | h2
  · cases h2
  · exact h2

theorem foldl_mapGet_no_match {ts : List Task} {k : String} (acc : Option Task)
    (h : ∀ u ∈ ts, u.id ≠ k) :
    ts.foldl (fun acc t => if t.id = k then some t else acc) acc = acc := by
  induction ts generalizing acc with
  | nil => rfl
  | cons u ts ih =>
    simp only [List.foldl_cons]
    rw [if_neg (h u (List.mem_cons_self u ts))]
    exact ih acc (fun v hv => h v (List.mem_cons_of_mem u hv))

theorem mapGet_self_of_nodup {ts : List Task} {t : Task}
    (hnd : (ts.map (·.id)).Nodup) (ht : t ∈ ts) : mapGet ts t.id = some t := by
  induction ts with
  | nil => cases ht
  | cons u ts ih =>
    simp only [List.map_cons, List.nodup_cons, List.mem_map] at hnd
    rcases List.mem_cons.mp ht with h | h
    · subst h
      show List.foldl _ (if t.id = t.id then some t else none) ts = some t
      rw [if_pos rfl]
      exact foldl_mapGet_no_match (some t)
        (fun v hv he => hnd.1 ⟨v, hv, he⟩)
    · show List.foldl _ (if u.id = t.id then some u else none) ts = some t
      have hne : u.id ≠ t.id := fun he => hnd.1 ⟨t, h, he.symm⟩
      rw [if_neg hne]
      exact ih hnd.2 h

theorem mapGet_go_eq_none {ts : List Task} {k : String} {acc : Option Task}
    (h : ts.foldl (fun acc t => if t.id = k then some t else acc) acc = none) :
    acc = none ∧ ∀ u ∈ ts, u.id ≠ k := by
  induction ts generalizing acc with
  | nil => exact ⟨h, fun u hu => absurd hu (List.not_mem_nil u)⟩
  | cons u ts ih =>
    simp only [List.foldl_cons] at h
    obtain ⟨h1, h2⟩ := ih h
    by_cases hu : u.id = k
    · rw [if_pos hu] at h1; cases h1
    · rw [if_neg hu] at h1
      refine ⟨h1, fun v hv => ?_⟩
      rcases List.mem_cons.mp hv with rfl | hv2
      · exact hu
      · exact h2 v hv2

theorem mapGet_eq_none {ts : List Task} {k : String}
    (h : mapGet ts k = none) : ∀ u ∈ ts, u.id ≠ k :=
  (mapGet_go_eq_none h).2

-- ## Relating `maxDepEnd` to the resolvable-predecessor end list

theorem maxDepEnd_eq_fold (ts : List Task) (deps : List String) (a : Int) :
    maxDepEnd ts deps a =
      (resolvedEndsOf ts deps).foldl (fun acc e => if acc < e then e else acc) a := by
  induction deps generalizing a with
  | nil => rfl
  | cons pid deps ih =>
    simp only [maxDepEnd, List.foldl_cons, resolvedEndsOf, List.filterMap_cons]
    cases h : mapGet ts pid with
    | none => simpa only [maxDepEnd, resolvedEndsOf, Option.map_none'] using ih a
    | some p =>
      simpa only [maxDepEnd, resolvedEndsOf, Option.map_some', List.foldl_cons]
        using ih (if a < p.«end» then p.«end» else a)

theorem mem_resolvedEndsOf {ts : List Task} {deps : List String} {e : Int} :
    e ∈ resolvedEndsOf ts deps ↔
      ∃ pid ∈ deps, ∃ p, mapGet ts pid = some p ∧ p.«end» = e := by
  simp [resolvedEndsOf, Option.map_eq_some']

-- ## Claim C1: violation detection

theorem violatedB_iff_spec {ts : List Task} (h : ∀ u ∈ ts, 0 < u.«end») (t : Task) :
    violatedB ts t = true ↔ specViolatedB ts t = true := by
  have hpos : ∀ e ∈ resolvedEndsOf ts t.deps, 0 < e := by
    intro e he
    obtain ⟨pid, _, p, hp, hpe⟩ := mem_resolvedEndsOf.mp he
    exact hpe ▸ h p (mapGet_eq_some hp).1
  simp only [violatedB, specViolatedB, Bool.and_eq_true, decide_eq_true_eq,
    List.any_eq_true, maxDepEnd_eq_fold]
  constructor
  · rintro ⟨hlt, hs⟩
    rcases foldl_max_cases (fun e => e) (resolvedEndsOf ts t.deps) 0 with hc | ⟨e, he, hc⟩
    · rw [hc] at hlt; exact absurd hlt (lt_irrefl 0)
    · exact ⟨e, he, by rw [← hc]; exact hs⟩
  · rintro ⟨e, he, hs⟩
    have hle := foldl_max_mem_le (fun e => e) (resolvedEndsOf ts t.deps) 0 e he
    exact ⟨lt_of_lt_of_le (hpos e he) hle, lt_of_lt_of_le hs hle⟩

theorem mem_violations_iff {ts : List Task} {x : String} :
    x ∈ violations ts ↔ ∃ t ∈ ts, t.id = x ∧ violatedB ts t = true := by
  simp only [violations, List.mem_map, List.mem_filter]
  constructor
  · rintro ⟨t, ⟨hm, hv⟩, hx⟩
    exact ⟨t, hm, hx, hv⟩
  · rintro ⟨t, hm, hx, hv⟩
    exact ⟨t, ⟨hm, hv⟩, hx⟩

/-- C1, counterexample: the claim fails for dates on or before the epoch.
In `preEpochTasks`, "B" has the resolvable predecessor "A" and
B.start < A.end, so the claim places "B" in the violation set; but the
implementation's `new Date(0)` sentinel absorbs every pre-epoch
predecessor end and the computed set is empty. -/
theorem violations_claim_counterexample :
    "B" ∉ violations preEpochTasks ∧ specViolationSet preEpochTasks "B" := by
  constructor
  · decide
  · exact ⟨preEpochTasks[1], by decide, by decide, by decide⟩

/-- C1, amended: for task lists whose `end` dates all lie strictly after
1970-01-01 (positive `getTime()`), an id is in the computed violation set
iff some task carrying it has a resolvable predecessor whose maximum end
is after the task's start; with zero resolvable predecessors it is never
flagged. -/
theorem mem_violations_iff_spec (ts : List Task)
    (h : ∀ u ∈ ts, 0 < u.«end») (x : String) :
    x ∈ violations ts ↔ specViolationSet ts x := by
  rw [mem_violations_iff]
  constructor
  · rintro ⟨t, hm, hx, hv⟩
    exact ⟨t, hm, hx, (violatedB_iff_spec h t).mp hv⟩
  · rintro ⟨t, hm, hx, hv⟩
    exact ⟨t, hm, hx, (violatedB_iff_spec h t).mpr hv⟩

/-- C1, witness: the amended equivalence evaluated on the spec scenario. -/
theorem mem_violations_iff_spec_witness :
    "Y" ∈ violations scenarioTasks ↔ specViolationSet scenarioTasks "Y" :=
  mem_violations_iff_spec scenarioTasks (by decide) "Y"

-- ## Claim C2: the spec scenario

/-- C2: on the spec scenario, the violation set is exactly {"Y"}; after
auto-scheduling with the visible range derived from the list, X is
unchanged, Y moves to start 2024-02-05 / end 2024-02-09 (4-day duration
kept), and the violation set of the result is empty.  (The `today`
argument of `rangeOfTasks` is irrelevant for a non-empty list.) -/
theorem scenario_correct :
    violations scenarioTasks = ["Y"] ∧
    autoSchedule scenarioTasks (rangeOfTasks scenarioTasks 0).1
        (rangeOfTasks scenarioTasks 0).2 =
      [taskX, { taskY with start := daysFromCivil 2024 2 5,
                           «end» := daysFromCivil 2024 2 9 }] ∧
    violations (autoSchedule scenarioTasks (rangeOfTasks scenarioTasks 0).1
        (rangeOfTasks scenarioTasks 0).2) = [] := by
  refine ⟨by decide, by decide, by decide⟩

-- ## Claim C8: coordinate round-trip

theorem fdiv_odd_mul (m w : Int) (hw : 0 < w) :
    ((2 * m + 1) * w).fdiv (2 * w) = m := by
  have h2w : (0 : Int) < 2 * w := by omega
  rw [Int.fdiv_eq_ediv _ (le_of_lt h2w)]
  have he : (2 * m + 1) * w = w + 2 * w * m := by ring
  rw [he, Int.add_mul_ediv_left w m (by omega : (2 : Int) * w ≠ 0),
    Int.ediv_eq_zero_of_lt (le_of_lt hw) (by omega), zero_add]

/-- C8: for every day-boundary date `d`, every origin `o` and every zoom
preset day width, mapping the date to a pixel offset and back returns the
date exactly. -/
theorem xToDate_dateToX (z : ZoomKey) (o d : Int) :
    xToDate o (ZOOMS z) (dateToX o (ZOOMS z) d) = d := by
  have hw : 0 < ZOOMS z := by cases z <;> decide
  unfold xToDate dateToX
  have he : 2 * ((d - o) * ZOOMS z) + ZOOMS z = (2 * (d - o) + 1) * ZOOMS z := by ring
  rw [he, fdiv_odd_mul _ _ hw]
  omega

/-- The drag-displacement cancellation used by `onMove`:
`xToDate(dateToX(d) + ddays * dayWidth) = d + ddays` exactly. -/
theorem xToDate_dateToX_add (o w d k : Int) (hw : 0 < w) :
    xToDate o w (dateToX o w d + k * w) = d + k := by
  unfold xToDate dateToX
  have he : 2 * ((d - o) * w + k * w) + w = (2 * (d - o + k) + 1) * w := by ring
  rw [he, fdiv_odd_mul _ _ hw]
  omega

-- ## Claim C9: the visible window

/-- C9, counterexample: in `depMinTasks` the only predecessor-free task
starts at day 10, so the claim's window starts at day 3; the code takes
the minimum start over *all* tasks (day 0) and the window starts at
day -7. -/
theorem rangeOfTasks_claim_counterexample :
    specRange depMinTasks 0 = some (3, 41) ∧ rangeOfTasks depMinTasks 0 ≠ (3, 41) := by
  refine ⟨by decide, by decide⟩

/-- C9, amended: for an empty task list the window is
`[today, today + 30]`; for a non-empty list the window start is the
minimum start over *all* tasks (not only predecessor-free ones) minus 7,
and the window end is the maximum end plus 21. -/
theorem rangeOfTasks_spec (ts : List Task) (today : Int) :
    (ts = [] → rangeOfTasks ts today = (today, today + 30)) ∧
    (ts ≠ [] →
      (∃ t ∈ ts, (rangeOfTasks ts today).1 = t.start - 7) ∧
      (∀ t ∈ ts, (rangeOfTasks ts today).1 ≤ t.start - 7) ∧
      (∃ t ∈ ts, (rangeOfTasks ts today).2 = t.«end» + 21) ∧
      (∀ t ∈ ts, t.«end» + 21 ≤ (rangeOfTasks ts today).2)) := by
  constructor
  · rintro rfl; rfl
  · intro hne
    match ts, hne with
    | t0 :: rest, _ =>
      simp only [rangeOfTasks]
      refine ⟨?_, ?_, ?_, ?_⟩
      · rcases foldl_min_cases (fun t : Task => t.start) (t0 :: rest) t0.start with hc | ⟨t, ht, hc⟩
        · exact ⟨t0, List.mem_cons_self t0 rest, by rw [hc]⟩
        · exact ⟨t, ht, by rw [hc]⟩
      · intro t ht
        have := foldl_min_le_mem (fun t : Task => t.start) (t0 :: rest) t0.start t ht
        simp only [] at this
        omega
      · rcases foldl_max_cases (fun t : Task => t.«end») (t0 :: rest) t0.«end» with hc | ⟨t, ht, hc⟩
        · exact ⟨t0, List.mem_cons_self t0 rest, by rw [hc]⟩
        · exact ⟨t, ht, by rw [hc]⟩
      · intro t ht
        have := foldl_max_mem_le (fun t : Task => t.«end») (t0 :: rest) t0.«end» t ht
        simp only [] at this
        omega

-- ## Range bounds shared by the drag and auto-schedule proofs

theorem range_fst_le {ts : List Task} {t : Task} (ht : t ∈ ts) (today : Int) :
    (rangeOfTasks ts today).1 ≤ t.start - 7 := by
  match ts, ht with
  | t0 :: rest, ht =>
    have := foldl_min_le_mem (fun t : Task => t.start) (t0 :: rest) t0.start t ht
    simp only [] at this
    simp only [rangeOfTasks]
    omega

theorem range_snd_ge {ts : List Task} {t : Task} (ht : t ∈ ts) (today : Int) :
    t.«end» + 21 ≤ (rangeOfTasks ts today).2 := by
  match ts, ht with
  | t0 :: rest, ht =>
    have := foldl_max_mem_le (fun t : Task => t.«end») (t0 :: rest) t0.«end» t ht
    simp only [] at this
    simp only [rangeOfTasks]
    omega

-- ## Clamp facts

theorem clampDateStr_mono {mn mx a b : Int} (h : mn ≤ mx) (hab : a ≤ b) :
    clampDateStr a mn mx ≤ clampDateStr b mn mx := by
  unfold clampDateStr
  split_ifs <;> omega

theorem clampDateStr_le_right {mn mx a : Int} (h : mn ≤ mx) :
    clampDateStr a mn mx ≤ mx := by
  unfold clampDateStr
  split_ifs <;> omega

theorem clampDateStr_eq_self {mn mx a : Int} (h1 : mn ≤ a) (h2 : a ≤ mx) :
    clampDateStr a mn mx = a := by
  unfold clampDateStr
  split_ifs <;> omega

/-- C9, witness: the amended characterisation evaluated on `depMinTasks`. -/
theorem rangeOfTasks_spec_witness :
    (∃ t ∈ depMinTasks, (rangeOfTasks depMinTasks 0).1 = t.start - 7) ∧
    (∀ t ∈ depMinTasks, t.«end» + 21 ≤ (rangeOfTasks depMinTasks 0).2) :=
  ⟨((rangeOfTasks_spec depMinTasks 0).2 (by decide)).1,
   ((rangeOfTasks_spec depMinTasks 0).2 (by decide)).2.2.2⟩

-- ## Claim C6: resize edits keep at least a 1-day span

theorem zooms_pos (z : ZoomKey) : 0 < ZOOMS z := by
  cases z <;> decide

/-- C6: with the visible range derived from the current task list, a
ResizeStart or ResizeEnd edit of a task of the list (snapshotting its
current dates) yields, for every integer day displacement, an edited task
with `end - start ≥ 1`: the moving edge is forced against the fixed edge
and the subsequent range clamp cannot undo that. -/
theorem onMove_resize_min_duration (ts : List Task) (today : Int)
    (hnd : (ts.map (·.id)).Nodup)
    (hinv : ∀ u ∈ ts, u.start ≤ u.«end»)
    (t0 : Task) (ht0 : t0 ∈ ts) (z : ZoomKey) (k : DragKind)
    (hk : k = DragKind.resizeLeft ∨ k = DragKind.resizeRight) (dd : Int) :
    ∀ u ∈ onMove (rangeOfTasks ts today).1 (rangeOfTasks ts today).2 (ZOOMS z)
        { id := t0.id, kind := k, origStart := t0.start, origEnd := t0.«end» } dd ts,
      u.id = t0.id → 1 ≤ u.«end» - u.start := by
  intro u hu hid
  obtain ⟨v, hv, rfl⟩ := List.mem_map.mp hu
  by_cases hvid : v.id = t0.id
  · have hvt0 : v = t0 := List.inj_on_of_nodup_map hnd hv ht0 hvid
    subst hvt0
    have hmn := range_fst_le hv today
    have hmx := range_snd_ge hv today
    have hse := hinv v hv
    rcases hk with rfl | rfl
    · simp only [if_pos hvid, xToDate_dateToX_add _ _ _ _ (zooms_pos z)]
      unfold clampDateStr
      split_ifs <;> simp <;> omega
    · simp only [if_pos hvid, xToDate_dateToX_add _ _ _ _ (zooms_pos z)]
      unfold clampDateStr
      split_ifs <;> simp <;> omega
  · simp only [if_neg hvid] at hid
    exact absurd hid hvid

-- ## Claim C7: all operations preserve `start ≤ end`

theorem autoScheduleStep_preserves {mn mx : Int} (h : mn ≤ mx) {cur : List Task}
    (hinv : ∀ u ∈ cur, u.start ≤ u.«end») (i : String) :
    ∀ u ∈ autoScheduleStep mn mx cur i, u.start ≤ u.«end» := by
  cases hm : mapGet cur i with
  | none => simpa only [autoScheduleStep, hm] using hinv
  | some t =>
    have ht : t ∈ cur := (mapGet_eq_some hm).1
    simp only [autoScheduleStep, hm]
    by_cases hfire : t.start < maxDepEnd cur t.deps t.start
    · rw [if_pos hfire]
      intro u hu
      obtain ⟨v, hv, rfl⟩ := List.mem_map.mp hu
      by_cases hvid : v.id = i
      · simp only [if_pos hvid]
        have hdur : 0 ≤ t.«end» - t.start := by have := hinv t ht; omega
        exact clampDateStr_mono h (by omega)
      · simp only [if_neg hvid]
        exact hinv v hv
    · rw [if_neg hfire]
      exact hinv

theorem autoSchedule_go_preserves {mn mx : Int} (h : mn ≤ mx)
    (order : List String) (cur : List Task)
    (hinv : ∀ u ∈ cur, u.start ≤ u.«end») :
    ∀ u ∈ order.foldl (autoScheduleStep mn mx) cur, u.start ≤ u.«end» := by
  induction order generalizing cur with
  | nil => exact hinv
  | cons i order ih =>
    exact ih (autoScheduleStep mn mx cur i) (autoScheduleStep_preserves h hinv i)

/-- C7: given `start ≤ end` for every task, both the drag reduction (in
each of the three modes, for every displacement, with the visible range
derived from the list and the drag snapshot taken from the edited task)
and the auto-scheduler (with the same derived range) produce task lists
in which `start ≤ end` still holds for every task. -/
theorem operations_preserve_invariant (ts : List Task) (today : Int)
    (hnd : (ts.map (·.id)).Nodup)
    (hinv : ∀ u ∈ ts, u.start ≤ u.«end») :
    (∀ t0 ∈ ts, ∀ (k : DragKind) (z : ZoomKey) (dd : Int),
      ∀ u ∈ onMove (rangeOfTasks ts today).1 (rangeOfTasks ts today).2 (ZOOMS z)
          { id := t0.id, kind := k, origStart := t0.start, origEnd := t0.«end» } dd ts,
        u.start ≤ u.«end») ∧
    (∀ u ∈ autoSchedule ts (rangeOfTasks ts today).1 (rangeOfTasks ts today).2,
      u.start ≤ u.«end») := by
  have hrange : ∀ t ∈ ts, (rangeOfTasks ts today).1 ≤ (rangeOfTasks ts today).2 := by
    intro t ht
    have h1 := range_fst_le ht today
    have h2 := range_snd_ge ht today
    have h3 := hinv t ht
    omega
  constructor
  · intro t0 ht0 k z dd u hu
    obtain ⟨v, hv, rfl⟩ := List.mem_map.mp hu
    by_cases hvid : v.id = t0.id
    · have hvt0 : v = t0 := List.inj_on_of_nodup_map hnd hv ht0 hvid
      subst hvt0
      have hmn := range_fst_le hv today
      have hmx := range_snd_ge hv today
      have hse := hinv v hv
      cases k with
      | move =>
        simp only [if_pos hvid, xToDate_dateToX_add _ _ _ _ (zooms_pos z)]
        exact clampDateStr_mono (hrange v hv) (by omega)
      | resizeLeft =>
        simp only [if_pos hvid, xToDate_dateToX_add _ _ _ _ (zooms_pos z)]
        unfold clampDateStr
        split_ifs <;> simp <;> omega
      | resizeRight =>
        simp only [if_pos hvid, xToDate_dateToX_add _ _ _ _ (zooms_pos z)]
        unfold clampDateStr
        split_ifs <;> simp <;> omega
    · simp only [if_neg hvid]
      exact hinv v hv
  · rcases hts : ts with _ | ⟨t0, rest⟩
    · subst hts
      intro u hu
      have hempty : autoSchedule ([] : List Task) (rangeOfTasks ([] : List Task) today).1
          (rangeOfTasks ([] : List Task) today).2 = [] := rfl
      rw [hempty] at hu
      cases hu
    · rw [← hts]
      exact autoSchedule_go_preserves (hrange t0 (hts ▸ List.mem_cons_self t0 rest))
        (topoSort ts) ts hinv

/-- C6, witness: on `chainTasks`, a ResizeEnd drag of "B" by -100 days
yields the task ("B", start 5, end 6), whose span is still ≥ 1 day. -/
theorem onMove_resize_min_duration_witness :
    (⟨"B", "B", 5, 6, ["A"]⟩ : Task) ∈ onMove (rangeOfTasks chainTasks 0).1
        (rangeOfTasks chainTasks 0).2 (ZOOMS ZoomKey.day)
        { id := "B", kind := DragKind.resizeRight, origStart := 5, origEnd := 12 }
        (-100) chainTasks ∧
      1 ≤ (⟨"B", "B", 5, 6, ["A"]⟩ : Task).«end» - (⟨"B", "B", 5, 6, ["A"]⟩ : Task).start :=
  ⟨by decide, onMove_resize_min_duration chainTasks 0 (by decide) (by decide)
    chainTasks[1] (by decide) ZoomKey.day DragKind.resizeRight (Or.inr rfl) (-100)
    ⟨"B", "B", 5, 6, ["A"]⟩ (by decide) (by decide)⟩

/-- C7, witness: auto-scheduling `chainTasks` moves "B" to (10, 17),
which still satisfies `start ≤ end`. -/
theorem operations_preserve_invariant_witness :
    (⟨"B", "B", 10, 17, ["A"]⟩ : Task) ∈ autoSchedule chainTasks
        (rangeOfTasks chainTasks 0).1 (rangeOfTasks chainTasks 0).2 ∧
      (⟨"B", "B", 10, 17, ["A"]⟩ : Task).start ≤ (⟨"B", "B", 10, 17, ["A"]⟩ : Task).«end» :=
  ⟨by decide, (operations_preserve_invariant chainTasks 0 (by decide) (by decide)).2
    ⟨"B", "B", 10, 17, ["A"]⟩ (by decide)⟩

-- ## Counting helpers

theorem countP_ext {α : Type} (p q : α → Bool) (l : List α) (h : ∀ a, p a = q a) :
    l.countP p = l.countP q := by
  induction l with
  | nil => rfl
  | cons a l ih => rw [List.countP_cons, List.countP_cons, ih, h a]

theorem countP_split {α : Type} (p q : α → Bool) (l : List α) :
    l.countP p = l.countP (fun a => p a && q a) + l.countP (fun a => p a && !q a) := by
  induction l with
  | nil => rfl
  | cons a l ih =>
    simp only [List.countP_cons, ih]
    cases hp : p a <;> cases hq : q a <;> simp [hp, hq] <;> omega

theorem countInEdges_eq_countP (E : List (String × String)) (out : List String) (n : String) :
    countInEdges E out n = (E.countP (fun e => decide (e.2 = n ∧ e.1 ∉ out)) : Int) := by
  unfold countInEdges
  rw [List.countP_eq_length_filter]

theorem countInEdges_nonneg (E : List (String × String)) (out : List String) (n : String) :
    0 ≤ countInEdges E out n := by
  rw [countInEdges_eq_countP]
  exact Int.natCast_nonneg _

theorem countInEdges_append (E : List (String × String)) (out : List String)
    (x : String) (hx : x ∉ out) (n : String) :
    countInEdges E (out ++ [x]) n = countInEdges E out n - (edgeCount E x n : Int) := by
  rw [countInEdges_eq_countP, countInEdges_eq_countP]
  unfold edgeCount
  rw [countP_split (fun e => decide (e.2 = n ∧ e.1 ∉ out)) (fun e => decide (e.1 = x)) E]
  have h1 : ∀ e : String × String,
      (decide (e.2 = n ∧ e.1 ∉ out) && decide (e.1 = x))
        = (decide (e.1 = x) && decide (e.2 = n)) := by
    intro e
    by_cases h3 : e.1 = x
    · have h4 : e.1 ∉ out := h3 ▸ hx
      by_cases h2 : e.2 = n <;> simp [h2, h3, h4, hx]
    · simp [h3]
  have h2 : ∀ e : String × String,
      (decide (e.2 = n ∧ e.1 ∉ out) && !decide (e.1 = x))
        = decide (e.2 = n ∧ e.1 ∉ out ++ [x]) := by
    intro e
    by_cases hn : e.2 = n <;> by_cases ho : e.1 ∈ out <;> by_cases h3 : e.1 = x <;>
      simp [hn, ho, h3]
  rw [countP_ext _ _ _ h1, countP_ext _ _ _ h2]
  push_cast
  ring

theorem countInEdges_eq_zero {E : List (String × String)} {out : List String} {n : String}
    (h : countInEdges E out n = 0) :
    ∀ e ∈ E, e.2 = n → e.1 ∈ out := by
  rw [countInEdges_eq_countP] at h
  have h2 : E.countP (fun e => decide (e.2 = n ∧ e.1 ∉ out)) = 0 := by omega
  intro e he hen
  by_contra hout
  have := List.countP_eq_zero.mp h2 e he
  simp only [decide_eq_true_eq] at this
  exact this ⟨hen, hout⟩

theorem countInEdges_pos {E : List (String × String)} {out : List String}
    {e : String × String} (he : e ∈ E) (hout : e.1 ∉ out) :
    1 ≤ countInEdges E out e.2 := by
  rw [countInEdges_eq_countP]
  have : 0 < E.countP (fun x => decide (x.2 = e.2 ∧ x.1 ∉ out)) :=
    List.countP_pos.mpr ⟨e, he, by simp [hout]⟩
  omega

theorem exists_edge_of_countInEdges_pos {E : List (String × String)} {out : List String}
    {n : String} (h : 1 ≤ countInEdges E out n) :
    ∃ e ∈ E, e.2 = n ∧ e.1 ∉ out := by
  rw [countInEdges_eq_countP] at h
  have h2 : 0 < E.countP (fun e => decide (e.2 = n ∧ e.1 ∉ out)) := by omega
  obtain ⟨e, he, hp⟩ := List.countP_pos.mp h2
  simp only [decide_eq_true_eq] at hp
  exact ⟨e, he, hp⟩

theorem mem_of_edgeCount_pos {E : List (String × String)} {x n : String}
    (h : 1 ≤ edgeCount E x n) : (x, n) ∈ E := by
  unfold edgeCount at h
  obtain ⟨e, he, hp⟩ := List.countP_pos.mp
    (show 0 < E.countP (fun e => decide (e.1 = x) && decide (e.2 = n)) by omega)
  simp only [Bool.and_eq_true, decide_eq_true_eq] at hp
  have : e = (x, n) := Prod.ext hp.1 hp.2
  exact this ▸ he

theorem edgeCount_le_countInEdges (E : List (String × String)) (out : List String)
    (x : String) (hx : x ∉ out) (n : String) :
    (edgeCount E x n : Int) ≤ countInEdges E out n := by
  rw [countInEdges_eq_countP]
  unfold edgeCount
  have := List.countP_mono_left (l := E)
    (p := fun e => decide (e.1 = x) && decide (e.2 = n))
    (q := fun e => decide (e.2 = n ∧ e.1 ∉ out))
    (by
      intro e _ hp
      simp only [Bool.and_eq_true, decide_eq_true_eq] at hp
      simp only [decide_eq_true_eq]
      exact ⟨hp.2, hp.1 ▸ hx⟩)
  omega

theorem occs_cons (n : String) (rest : List String) (m : String) :
    occs (n :: rest) m = occs rest m + (if n = m then 1 else 0) := by
  unfold occs
  rw [List.countP_cons]
  simp

-- ## Characterising the adjacency build

theorem depsFold_eq (deps : List String) (tid : String) (ids : List String)
    (st : (String → List String) × (String → Int)) :
    deps.foldl (fun st2 p => if p ∈ ids then edgeInsert st2 (p, tid) else st2) st
      = ((deps.filter (fun p => decide (p ∈ ids))).map (fun p => (p, tid))).foldl
          edgeInsert st := by
  induction deps generalizing st with
  | nil => rfl
  | cons p deps ih =>
    simp only [List.foldl_cons]
    by_cases hp : p ∈ ids
    · rw [if_pos hp, List.filter_cons_of_pos (by simpa using hp), List.map_cons,
        List.foldl_cons]
      exact ih _
    · rw [if_neg hp, List.filter_cons_of_neg (by simpa using hp)]
      exact ih _

theorem buildGraph_outer (l : List Task) (ids : List String)
    (st : (String → List String) × (String → Int)) :
    l.foldl (fun st t =>
      t.deps.foldl (fun st2 p => if p ∈ ids then edgeInsert st2 (p, t.id) else st2) st) st
      = (l.flatMap (fun t =>
          (t.deps.filter (fun p => decide (p ∈ ids))).map (fun p => (p, t.id)))).foldl
          edgeInsert st := by
  induction l generalizing st with
  | nil => rfl
  | cons t l ih =>
    rw [List.foldl_cons, List.flatMap_cons, List.foldl_append, depsFold_eq]
    exact ih _

theorem buildGraph_eq (ts : List Task) :
    buildGraph ts
      = (resolvableEdges ts).foldl edgeInsert (fun _ => [], fun _ => 0) := by
  unfold buildGraph resolvableEdges
  exact buildGraph_outer ts (ts.map (fun t => t.id)) (fun _ => [], fun _ => 0)

theorem occs_cons_self (n : String) (rest : List String) :
    occs (n :: rest) n = occs rest n + 1 := by
  rw [occs_cons, if_pos rfl]

theorem occs_cons_ne (n : String) (rest : List String) (m : String) (h : m ≠ n) :
    occs (n :: rest) m = occs rest m := by
  rw [occs_cons, if_neg (fun he => h he.symm)]
  omega

theorem foldl_edgeInsert_snd (E : List (String × String))
    (st : (String → List String) × (String → Int)) (n : String) :
    ((E.foldl edgeInsert st).2) n
      = st.2 n + (E.countP (fun e : String × String => decide (e.2 = n)) : Int) := by
  induction E generalizing st with
  | nil => simp
  | cons e E ih =>
    rw [List.foldl_cons, ih, List.countP_cons]
    simp only [edgeInsert, updF]
    by_cases h : n = e.2
    · rw [if_pos h, if_pos (by simp [h])]
      rw [h]
      push_cast
      ring
    · rw [if_neg h, if_neg (by simp; exact fun he => h he.symm)]
      push_cast
      ring

theorem foldl_edgeInsert_fst (E : List (String × String))
    (st : (String → List String) × (String → Int)) (x : String) :
    ((E.foldl edgeInsert st).1) x
      = st.1 x ++ (E.filter (fun e : String × String => decide (e.1 = x))).map (·.2) := by
  induction E generalizing st with
  | nil => simp
  | cons e E ih =>
    rw [List.foldl_cons, ih]
    simp only [edgeInsert, updG]
    by_cases h : x = e.1
    · rw [if_pos h, List.filter_cons_of_pos (by simp [h]), List.map_cons, h,
        List.append_assoc, List.singleton_append]
    · rw [if_neg h, List.filter_cons_of_neg (by simp; exact fun he => h he.symm)]

theorem buildGraph_snd (ts : List Task) (n : String) :
    (buildGraph ts).2 n = countInEdges (resolvableEdges ts) [] n := by
  rw [buildGraph_eq, foldl_edgeInsert_snd, countInEdges_eq_countP]
  have hx := countP_ext (fun e : String × String => decide (e.2 = n ∧ e.1 ∉ ([] : List String)))
    (fun e : String × String => decide (e.2 = n)) (resolvableEdges ts) (by intro e; simp)
  rw [hx]
  simp

theorem buildGraph_fst_occs (ts : List Task) (x m : String) :
    occs ((buildGraph ts).1 x) m = edgeCount (resolvableEdges ts) x m := by
  rw [buildGraph_eq, foldl_edgeInsert_fst]
  simp only [List.nil_append]
  unfold occs edgeCount
  rw [List.countP_map, List.countP_filter]
  refine countP_ext _ _ _ ?_
  intro e
  simp only [Function.comp]
  rw [Bool.and_comm]

-- ## The effect of one successor pass

theorem processSuccs_spec (succs : List String) (indeg : String → Int) (q0 : List String)
    (hub : ∀ m, (occs succs m : Int) ≤ indeg m) :
    (∀ m, (processSuccs indeg q0 succs).1 m = indeg m - occs succs m) ∧
    ∃ newPart, (processSuccs indeg q0 succs).2 = q0 ++ newPart ∧ newPart.Nodup ∧
      (∀ m, m ∈ newPart ↔ (indeg m = occs succs m ∧ 1 ≤ occs succs m)) := by
  induction succs generalizing indeg q0 with
  | nil =>
    refine ⟨fun m => by simp [processSuccs, occs], [], by simp [processSuccs], List.nodup_nil,
      fun m => by simp [occs]⟩
  | cons n rest ih =>
    have hstep : processSuccs indeg q0 (n :: rest)
        = processSuccs (updF indeg n (indeg n - 1))
            (if indeg n - 1 = 0 then q0 ++ [n] else q0) rest := rfl
    have hub2 : ∀ m, (occs rest m : Int) ≤ updF indeg n (indeg n - 1) m := by
      intro m
      have h1 := hub m
      unfold updF
      by_cases hm : m = n
      · subst hm
        rw [occs_cons_self] at h1
        rw [if_pos rfl]
        push_cast at h1
        omega
      · rw [occs_cons_ne n rest m hm] at h1
        rw [if_neg hm]
        omega
    obtain ⟨h1, newPart, h2, h3, h4⟩ := ih (updF indeg n (indeg n - 1))
      (if indeg n - 1 = 0 then q0 ++ [n] else q0) hub2
    have hupd_self : updF indeg n (indeg n - 1) n = indeg n - 1 := by
      unfold updF
      rw [if_pos rfl]
    have hupd_ne : ∀ m, m ≠ n → updF indeg n (indeg n - 1) m = indeg m := by
      intro m hm
      unfold updF
      rw [if_neg hm]
    constructor
    · intro m
      rw [hstep, h1 m]
      by_cases hm : m = n
      · subst hm
        rw [hupd_self, occs_cons_self]
        push_cast
        ring
      · rw [hupd_ne m hm, occs_cons_ne n rest m hm]
    · refine ⟨(if indeg n - 1 = 0 then [n] else []) ++ newPart, ?_, ?_, ?_⟩
      · rw [hstep, h2]
        by_cases hd : indeg n - 1 = 0 <;> simp [hd]
      · by_cases hd : indeg n - 1 = 0
        · rw [if_pos hd, List.singleton_append, List.nodup_cons]
          refine ⟨fun hmem => ?_, h3⟩
          obtain ⟨he, hge⟩ := (h4 n).mp hmem
          rw [hupd_self] at he
          omega
        · rw [if_neg hd, List.nil_append]
          exact h3
      · intro m
        rw [List.mem_append]
        by_cases hm : m = n
        · subst hm
          have hub1 := hub m
          simp only [occs_cons_self] at hub1 ⊢
          have h4m := h4 m
          rw [hupd_self] at h4m
          have hmemif : m ∈ (if indeg m - 1 = 0 then [m] else ([] : List String))
              ↔ indeg m - 1 = 0 := by
            by_cases hd : indeg m - 1 = 0 <;> simp [hd]
          rw [hmemif, h4m]
          push_cast at hub1 ⊢
          simp only [and_true]
          omega
        · have h4m := h4 m
          rw [hupd_ne m hm] at h4m
          simp only [occs_cons_ne n rest m hm]
          have hmemif : m ∈ (if indeg n - 1 = 0 then [n] else ([] : List String)) ↔ False := by
            by_cases hd : indeg n - 1 = 0 <;> simp [hd, hm]
          rw [hmemif, h4m]
          simp

-- ## Preservation of the loop invariant

theorem kahnInv_step (E : List (String × String)) (V : List String)
    (g : String → List String)
    (hE : ∀ e ∈ E, e.1 ∈ V ∧ e.2 ∈ V)
    (hg : ∀ x m, occs (g x) m = edgeCount E x m)
    (indeg : String → Int) (x : String) (q2 out : List String)
    (hinv : KahnInv E V indeg (x :: q2) out) :
    KahnInv E V (processSuccs indeg q2 (g x)).1 (processSuccs indeg q2 (g x)).2
      (out ++ [x]) := by
  obtain ⟨hnd, hmem, hdeg, hsrc, hpos, hpw, hself⟩ := hinv
  have hx_q2out : x ∉ q2 ++ out := by
    rw [List.cons_append, List.nodup_cons] at hnd
    exact hnd.1
  have hnd2 : (q2 ++ out).Nodup := by
    have := hnd
    rw [List.cons_append, List.nodup_cons] at this
    exact this.2
  have hx_out : x ∉ out := fun h => hx_q2out (List.mem_append.mpr (Or.inr h))
  have hx_q2 : x ∉ q2 := fun h => hx_q2out (List.mem_append.mpr (Or.inl h))
  have hzero : ∀ n, n ∈ (x :: q2) ++ out → indeg n = 0 := by
    intro n hn
    rw [hdeg n]
    have h0 : ∀ e ∈ E, ¬(e.2 = n ∧ e.1 ∉ out) := by
      intro e he hcon
      exact hcon.2 (hsrc e he (by rw [hcon.1]; exact hn))
    rw [countInEdges_eq_countP,
      List.countP_eq_zero.mpr (by intro e he; simpa using h0 e he)]
    simp
  have hub : ∀ m, (occs (g x) m : Int) ≤ indeg m := by
    intro m
    rw [hg x m, hdeg m]
    exact edgeCount_le_countInEdges E out x hx_out m
  obtain ⟨hps1, newPart, hps2, hps3, hps4⟩ := processSuccs_spec (g x) indeg q2 hub
  have hdeg2 : ∀ n, (processSuccs indeg q2 (g x)).1 n = countInEdges E (out ++ [x]) n := by
    intro n
    rw [hps1 n, hdeg n, countInEdges_append E out x hx_out n, ← hg x n]
  have hfresh : ∀ m ∈ newPart, (x, m) ∈ E ∧ m ∈ V ∧ m ∉ (x :: q2) ++ out := by
    intro m hm
    obtain ⟨heq, hge⟩ := (hps4 m).mp hm
    have hxm : (x, m) ∈ E := mem_of_edgeCount_pos (by rw [← hg x m]; exact hge)
    refine ⟨hxm, (hE _ hxm).2, fun hc => ?_⟩
    have h0 := hzero m hc
    rw [h0] at heq
    omega
  have hq2nd : q2.Nodup := (List.nodup_append.mp hnd2).1
  have houtnd : out.Nodup := (List.nodup_append.mp hnd2).2.1
  have hq2out_dis : q2.Disjoint out := (List.nodup_append.mp hnd2).2.2
  refine ⟨?_, ?_, hdeg2, ?_, ?_, ?_, ?_⟩
  · rw [hps2, List.nodup_append]
    refine ⟨?_, ?_, ?_⟩
    · rw [List.nodup_append]
      refine ⟨hq2nd, hps3, ?_⟩
      intro a ha hb
      exact (hfresh a hb).2.2
        (List.mem_append.mpr (Or.inl (List.mem_cons_of_mem x ha)))
    · rw [List.nodup_append]
      refine ⟨houtnd, List.nodup_singleton x, ?_⟩
      intro a ha hb
      rw [List.mem_singleton] at hb
      subst hb
      exact hx_out ha
    · intro a ha hb
      rcases List.mem_append.mp ha with h1 | h1
      · rcases List.mem_append.mp hb with h2 | h2
        · exact hq2out_dis h1 h2
        · rw [List.mem_singleton] at h2
          subst h2
          exact hx_q2 h1
      · have hfr := (hfresh a h1).2.2
        rcases List.mem_append.mp hb with h2 | h2
        · exact hfr (List.mem_append.mpr (Or.inr h2))
        · rw [List.mem_singleton] at h2
          subst h2
          exact hfr (List.mem_append.mpr (Or.inl (List.mem_cons_self a q2)))
  · intro n hn
    rw [hps2] at hn
    rcases List.mem_append.mp hn with h1 | h1
    · rcases List.mem_append.mp h1 with h2 | h2
      · exact hmem n (List.mem_append.mpr (Or.inl (List.mem_cons_of_mem x h2)))
      · exact (hfresh n h2).2.1
    · rcases List.mem_append.mp h1 with h2 | h2
      · exact hmem n (List.mem_append.mpr (Or.inr h2))
      · rw [List.mem_singleton] at h2
        subst h2
        exact hmem n (List.mem_append.mpr (Or.inl (List.mem_cons_self n q2)))
  · intro e he h2
    rw [hps2] at h2
    have hold : e.2 ∈ (x :: q2) ++ out → e.1 ∈ out ++ [x] := fun hc =>
      List.mem_append.mpr (Or.inl (hsrc e he hc))
    rcases List.mem_append.mp h2 with h3 | h3
    · rcases List.mem_append.mp h3 with h4 | h4
      · exact hold (List.mem_append.mpr (Or.inl (List.mem_cons_of_mem x h4)))
      · obtain ⟨heq, hge⟩ := (hps4 e.2).mp h4
        have h0 : countInEdges E (out ++ [x]) e.2 = 0 := by
          rw [← hdeg2 e.2, hps1 e.2]
          omega
        exact countInEdges_eq_zero h0 e he rfl
    · rcases List.mem_append.mp h3 with h4 | h4
      · exact hold (List.mem_append.mpr (Or.inr h4))
      · rw [List.mem_singleton] at h4
        exact hold (List.mem_append.mpr (Or.inl (h4 ▸ List.mem_cons_self x q2)))
  · intro n hnV hnmem
    rw [hps2] at hnmem
    have hn_q2 : n ∉ q2 := fun h =>
      hnmem (List.mem_append.mpr (Or.inl (List.mem_append.mpr (Or.inl h))))
    have hn_new : n ∉ newPart := fun h =>
      hnmem (List.mem_append.mpr (Or.inl (List.mem_append.mpr (Or.inr h))))
    have hn_out : n ∉ out := fun h =>
      hnmem (List.mem_append.mpr (Or.inr (List.mem_append.mpr (Or.inl h))))
    have hn_x : n ≠ x := fun h =>
      hnmem (List.mem_append.mpr (Or.inr (List.mem_append.mpr
        (Or.inr (List.mem_singleton.mpr h)))))
    have hold : 1 ≤ indeg n := by
      refine hpos n hnV (fun hc => ?_)
      rcases List.mem_append.mp hc with h1 | h1
      · rcases List.mem_cons.mp h1 with h2 | h2
        · exact hn_x h2
        · exact hn_q2 h2
      · exact hn_out h1
    have hge0 : 0 ≤ (processSuccs indeg q2 (g x)).1 n := by
      rw [hdeg2 n]
      exact countInEdges_nonneg E (out ++ [x]) n
    by_contra hlt
    push_neg at hlt
    have hv0 : (processSuccs indeg q2 (g x)).1 n = 0 := by omega
    rw [hps1 n] at hv0
    exact hn_new ((hps4 n).mpr ⟨by omega, by omega⟩)
  · rw [List.pairwise_append]
    refine ⟨hpw, List.pairwise_singleton _ _, ?_⟩
    intro a ha b hb
    rw [List.mem_singleton] at hb
    subst hb
    intro hba
    exact hx_out (hsrc (b, a) hba (List.mem_append.mpr (Or.inr ha)))
  · intro n hn
    rcases List.mem_append.mp hn with h | h
    · exact hself n h
    · rw [List.mem_singleton] at h
      subst h
      intro hxx
      exact hx_out (hsrc (n, n) hxx
        (List.mem_append.mpr (Or.inl (List.mem_cons_self n q2))))

-- ## The loop always drains the queue and preserves the invariant

theorem kahnLoop_spec (E : List (String × String)) (V : List String)
    (g : String → List String)
    (hE : ∀ e ∈ E, e.1 ∈ V ∧ e.2 ∈ V)
    (hg : ∀ x m, occs (g x) m = edgeCount E x m) :
    ∀ (fuel : Nat) (indeg : String → Int) (q out : List String),
      KahnInv E V indeg q out →
      V.length < fuel + out.length →
      ∃ indeg2, KahnInv E V indeg2 [] (kahnLoop g fuel indeg q out) := by
  intro fuel
  induction fuel with
  | zero =>
    intro indeg q out hinv hlt
    exfalso
    obtain ⟨h1, h2, -⟩ := hinv
    have hsub : out ⊆ V := fun n hn => h2 n (List.mem_append.mpr (Or.inr hn))
    have hout_nd : out.Nodup := (List.nodup_append.mp h1).2.1
    have := (List.subperm_of_subset hout_nd hsub).length_le
    omega
  | succ fuel ih =>
    intro indeg q out hinv hlt
    cases q with
    | nil => exact ⟨indeg, hinv⟩
    | cons x q2 =>
      have hstep := kahnInv_step E V g hE hg indeg x q2 out hinv
      have hlen : V.length < fuel + (out ++ [x]).length := by
        rw [List.length_append, List.length_singleton]
        omega
      exact ih (processSuccs indeg q2 (g x)).1 (processSuccs indeg q2 (g x)).2
        (out ++ [x]) hstep hlen

-- ## The initial state satisfies the invariant

theorem kahn_init (ts : List Task) (hnd : (ts.map (·.id)).Nodup) :
    KahnInv (resolvableEdges ts) (ts.map (·.id)) (buildGraph ts).2
      ((ts.map (·.id)).filter (fun i => decide ((buildGraph ts).2 i = 0))) [] := by
  refine ⟨?_, ?_, ?_, ?_, ?_, List.Pairwise.nil, ?_⟩
  · rw [List.append_nil]
    exact hnd.filter _
  · intro n hn
    rw [List.append_nil] at hn
    exact (List.mem_filter.mp hn).1
  · intro n
    exact buildGraph_snd ts n
  · intro e he h2
    rw [List.append_nil] at h2
    exfalso
    have hq := List.mem_filter.mp h2
    have h0 : (buildGraph ts).2 e.2 = 0 := by simpa using hq.2
    rw [buildGraph_snd] at h0
    have := countInEdges_pos he (List.not_mem_nil e.1)
    omega
  · intro n hnV hn
    rw [List.append_nil] at hn
    have hne0 : ¬((buildGraph ts).2 n = 0) := by
      intro h0
      exact hn (List.mem_filter.mpr ⟨hnV, by simpa using h0⟩)
    have hge := countInEdges_nonneg (resolvableEdges ts) [] n
    rw [buildGraph_snd] at hne0 ⊢
    omega
  · intro n hn
    cases hn

theorem mem_resolvableEdges_endpoints {ts : List Task} {e : String × String}
    (he : e ∈ resolvableEdges ts) : e.1 ∈ ts.map (·.id) ∧ e.2 ∈ ts.map (·.id) := by
  unfold resolvableEdges at he
  rw [List.mem_flatMap] at he
  obtain ⟨t, ht, he2⟩ := he
  rw [List.mem_map] at he2
  obtain ⟨p, hp, rfl⟩ := he2
  rw [List.mem_filter] at hp
  constructor
  · simpa using hp.2
  · exact List.mem_map.mpr ⟨t, ht, rfl⟩

-- ## From a stuck remainder to a cycle

theorem exists_cycle_of_preds {α : Type} (S : Finset α) (r : α → α → Prop)
    (hne : S.Nonempty) (h : ∀ n ∈ S, ∃ u ∈ S, r u n) :
    ∃ z, Relation.TransGen r z z := by
  obtain ⟨n0, hn0⟩ := hne
  have hch : ∀ s : {y // y ∈ S}, ∃ u : {y // y ∈ S}, r u.1 s.1 := by
    intro s
    obtain ⟨u, hu, hr⟩ := h s.1 s.2
    exact ⟨⟨u, hu⟩, hr⟩
  choose f hf using hch
  have hstep : ∀ k : Nat, r (f^[k + 1] ⟨n0, hn0⟩).1 (f^[k] ⟨n0, hn0⟩).1 := by
    intro k
    rw [Function.iterate_succ_apply' f k]
    exact hf _
  have hchain : ∀ i j, i < j →
      Relation.TransGen r (f^[j] ⟨n0, hn0⟩).1 (f^[i] ⟨n0, hn0⟩).1 := by
    intro i j hij
    induction hij with
    | refl => exact Relation.TransGen.single (hstep i)
    | step h2 ih => exact Relation.TransGen.head (hstep _) ih
  obtain ⟨i, j, hne2, heq⟩ :=
    Finite.exists_ne_map_eq_of_infinite (fun k : Nat => f^[k] ⟨n0, hn0⟩)
  rcases Nat.lt_or_ge i j with hij | hij
  · have := hchain i j hij
    rw [heq] at this
    exact ⟨_, this⟩
  · have hji : j < i := Nat.lt_of_le_of_ne hij (fun he2 => hne2 he2.symm)
    have := hchain j i hji
    rw [← heq] at this
    exact ⟨_, this⟩

-- ## Consequences of the final loop state

theorem kahnFinal_complete (ts : List Task) (indeg : String → Int) (out : List String)
    (hinv : KahnInv (resolvableEdges ts) (ts.map (·.id)) indeg [] out)
    (hac : Acyclic ts) :
    ∀ v ∈ ts.map (·.id), v ∈ out := by
  obtain ⟨hnd, hmem, hdeg, hsrc, hpos, hpw, hself⟩ := hinv
  by_contra hc
  push_neg at hc
  obtain ⟨v0, hv0V, hv0⟩ := hc
  classical
  have hS : ∀ n, n ∈ ((ts.map (·.id)).toFinset.filter (fun v => v ∉ out))
      ↔ (n ∈ ts.map (·.id) ∧ n ∉ out) := by
    intro n
    simp
  have hne : ((ts.map (·.id)).toFinset.filter (fun v => v ∉ out)).Nonempty :=
    ⟨v0, (hS v0).mpr ⟨hv0V, hv0⟩⟩
  have hpred : ∀ n ∈ ((ts.map (·.id)).toFinset.filter (fun v => v ∉ out)),
      ∃ u ∈ ((ts.map (·.id)).toFinset.filter (fun v => v ∉ out)), edgeRel ts u n := by
    intro n hn
    obtain ⟨hnV, hnout⟩ := (hS n).mp hn
    have h1 : 1 ≤ indeg n := hpos n hnV (by simpa using hnout)
    rw [hdeg n] at h1
    obtain ⟨e, he, he2, he1⟩ := exists_edge_of_countInEdges_pos h1
    refine ⟨e.1, (hS e.1).mpr ⟨(mem_resolvableEdges_endpoints he).1, he1⟩, ?_⟩
    show (e.1, n) ∈ resolvableEdges ts
    rw [← he2]
    exact he
  obtain ⟨z, hz⟩ := exists_cycle_of_preds _ (edgeRel ts) hne hpred
  exact hac z hz

theorem kahnFinal_order (ts : List Task) (indeg : String → Int) (out : List String)
    (hinv : KahnInv (resolvableEdges ts) (ts.map (·.id)) indeg [] out)
    (hcomp : ∀ v ∈ ts.map (·.id), v ∈ out) :
    ∀ e ∈ resolvableEdges ts, out.indexOf e.1 < out.indexOf e.2 := by
  obtain ⟨hnd, hmem, hdeg, hsrc, hpos, hpw, hself⟩ := hinv
  intro e he
  obtain ⟨a, b⟩ := e
  have h1 : a ∈ out := hcomp a (mem_resolvableEdges_endpoints he).1
  have h2 : b ∈ out := hcomp b (mem_resolvableEdges_endpoints he).2
  have hne : a ≠ b := by
    intro heq
    subst heq
    exact hself a h1 he
  rw [← List.indexOf_lt_length] at h1 h2
  rcases Nat.lt_trichotomy (out.indexOf a) (out.indexOf b) with h | h | h
  · exact h
  · exfalso
    apply hne
    have g1 := List.getElem_indexOf h1
    have g2 := List.getElem_indexOf h2
    rw [← g1, ← g2]
    simp only [h]
  · exfalso
    have hp := List.pairwise_iff_getElem.mp hpw (out.indexOf b) (out.indexOf a) h2 h1 h
    rw [List.getElem_indexOf h1, List.getElem_indexOf h2] at hp
    exact hp he

theorem kahnFinal_no_cycle (ts : List Task) (indeg : String → Int) (out : List String)
    (hinv : KahnInv (resolvableEdges ts) (ts.map (·.id)) indeg [] out)
    (hcomp : ∀ v ∈ ts.map (·.id), v ∈ out) :
    ∀ n, ¬ Relation.TransGen (edgeRel ts) n n := by
  have hord := kahnFinal_order ts indeg out hinv hcomp
  have mono : ∀ a b, Relation.TransGen (edgeRel ts) a b →
      out.indexOf a < out.indexOf b := by
    intro a b h
    induction h with
    | single h1 => exact hord _ h1
    | tail hbc hr ih => exact Nat.lt_trans ih (hord _ hr)
  intro n hn
  exact absurd (mono n n hn) (lt_irrefl _)

theorem topoSort_eq_kahnOut (ts : List Task) :
    topoSort ts = if (kahnOut ts).length = (ts.map (·.id)).length then kahnOut ts
      else ts.map (·.id) := rfl

-- ## Claims C3 and C4

theorem topoSort_spec (ts : List Task)
    (hnd : (ts.map (·.id)).Nodup) (hac : Acyclic ts) :
    (topoSort ts).Perm (ts.map (·.id)) ∧
      ∀ e ∈ resolvableEdges ts,
        (topoSort ts).indexOf e.1 < (topoSort ts).indexOf e.2 := by
  obtain ⟨indeg2, hfin⟩ := kahnLoop_spec (resolvableEdges ts) (ts.map (·.id))
    (buildGraph ts).1 (fun e he => mem_resolvableEdges_endpoints he)
    (fun x m => buildGraph_fst_occs ts x m)
    (2 * (ts.map (·.id)).length + 1) (buildGraph ts).2
    ((ts.map (·.id)).filter (fun i => decide ((buildGraph ts).2 i = 0))) []
    (kahn_init ts hnd) (by simp; omega)
  have hout : kahnLoop (buildGraph ts).1 (2 * (ts.map (·.id)).length + 1)
      (buildGraph ts).2
      ((ts.map (·.id)).filter (fun i => decide ((buildGraph ts).2 i = 0))) []
      = kahnOut ts := rfl
  rw [hout] at hfin
  have hcomp := kahnFinal_complete ts indeg2 (kahnOut ts) hfin hac
  have hknd : (kahnOut ts).Nodup := by
    have := hfin.1
    simpa using this
  have hsub : ∀ n ∈ kahnOut ts, n ∈ ts.map (·.id) := fun n hn =>
    hfin.2.1 n (by simpa using hn)
  have hperm : (kahnOut ts).Perm (ts.map (·.id)) :=
    (List.perm_ext_iff_of_nodup hknd hnd).mpr
      (fun a => ⟨fun h => hsub a h, fun h => hcomp a h⟩)
  have htop : topoSort ts = kahnOut ts := by
    rw [topoSort_eq_kahnOut, if_pos hperm.length_eq]
  rw [htop]
  exact ⟨hperm, kahnFinal_order ts indeg2 (kahnOut ts) hfin hcomp⟩

/-- C3: for every task list with distinct ids whose resolvable-predecessor
graph is acyclic, `topoSort` returns a permutation of all task ids in
which, for every edge predecessor→successor, the predecessor's index in
the returned order is strictly less than the successor's. -/
theorem topoSort_topological (ts : List Task)
    (hnd : (ts.map (·.id)).Nodup) (hac : Acyclic ts) :
    (topoSort ts).Perm (ts.map (·.id)) ∧
      ∀ e ∈ resolvableEdges ts,
        (topoSort ts).indexOf e.1 < (topoSort ts).indexOf e.2 :=
  topoSort_spec ts hnd hac

/-- C4: for every task list with distinct ids whose resolvable-predecessor
graph contains a cycle, `topoSort` returns the original id list in its
original order (in particular of full length). -/
theorem topoSort_cycle_fallback (ts : List Task)
    (hnd : (ts.map (·.id)).Nodup)
    (hcyc : ∃ n, Relation.TransGen (edgeRel ts) n n) :
    topoSort ts = ts.map (·.id) := by
  rw [topoSort_eq_kahnOut]
  by_cases hlen : (kahnOut ts).length = (ts.map (·.id)).length
  · exfalso
    obtain ⟨indeg2, hfin⟩ := kahnLoop_spec (resolvableEdges ts) (ts.map (·.id))
      (buildGraph ts).1 (fun e he => mem_resolvableEdges_endpoints he)
      (fun x m => buildGraph_fst_occs ts x m)
      (2 * (ts.map (·.id)).length + 1) (buildGraph ts).2
      ((ts.map (·.id)).filter (fun i => decide ((buildGraph ts).2 i = 0))) []
      (kahn_init ts hnd) (by simp; omega)
    have hout : kahnLoop (buildGraph ts).1 (2 * (ts.map (·.id)).length + 1)
        (buildGraph ts).2
        ((ts.map (·.id)).filter (fun i => decide ((buildGraph ts).2 i = 0))) []
        = kahnOut ts := rfl
    rw [hout] at hfin
    have hknd : (kahnOut ts).Nodup := by
      have := hfin.1
      simpa using this
    have hsub : kahnOut ts ⊆ ts.map (·.id) := fun n hn =>
      hfin.2.1 n (by simpa using hn)
    have hperm := (List.subperm_of_subset hknd hsub).perm_of_length_le
      (le_of_eq hlen.symm)
    have hcomp : ∀ v ∈ ts.map (·.id), v ∈ kahnOut ts := fun v hv =>
      hperm.mem_iff.mpr hv
    obtain ⟨n, hn⟩ := hcyc
    exact kahnFinal_no_cycle ts indeg2 (kahnOut ts) hfin hcomp n hn
  · rw [if_neg hlen]

-- ## Concrete acyclicity and cycle facts for the witnesses

theorem acyclic_of_no_two_step {α : Type} {r : α → α → Prop}
    (h1 : ∀ a, ¬ r a a) (h2 : ∀ a b c, r a b → r b c → False) :
    ∀ n, ¬ Relation.TransGen r n n := by
  have hsingle : ∀ a b, Relation.TransGen r a b → r a b := by
    intro a b h
    induction h with
    | single h => exact h
    | tail hab hbc ih => exact (h2 _ _ _ ih hbc).elim
  intro n hn
  exact h1 n (hsingle n n hn)

theorem chainTasks_acyclic : Acyclic chainTasks := by
  have hEq : resolvableEdges chainTasks = [("A", "B")] := by decide
  refine acyclic_of_no_two_step ?_ ?_
  · intro a ha
    unfold edgeRel at ha
    rw [hEq, List.mem_singleton] at ha
    have h1 : a = "A" := congrArg Prod.fst ha
    have h2 : a = "B" := congrArg Prod.snd ha
    rw [h1] at h2
    exact absurd h2 (by decide)
  · intro a b c hab hbc
    unfold edgeRel at hab hbc
    rw [hEq, List.mem_singleton] at hab hbc
    have h1 : b = "B" := congrArg Prod.snd hab
    have h2 : b = "A" := congrArg Prod.fst hbc
    rw [h1] at h2
    exact absurd h2 (by decide)

/-- C3, witness: the topological guarantee evaluated on `chainTasks`. -/
theorem topoSort_topological_witness :
    (topoSort chainTasks).Perm (chainTasks.map (·.id)) ∧
      ∀ e ∈ resolvableEdges chainTasks,
        (topoSort chainTasks).indexOf e.1 < (topoSort chainTasks).indexOf e.2 :=
  topoSort_topological chainTasks (by decide) chainTasks_acyclic

/-- C4, witness: the cycle fallback evaluated on `loopTasks`. -/
theorem topoSort_cycle_fallback_witness :
    topoSort loopTasks = loopTasks.map (·.id) :=
  topoSort_cycle_fallback loopTasks (by decide)
    ⟨"A", Relation.TransGen.head
      (by show ("A", "B") ∈ resolvableEdges loopTasks; decide)
      (Relation.TransGen.single
        (by show ("B", "A") ∈ resolvableEdges loopTasks; decide))⟩

-- ## Index and lookup helpers for the auto-schedule proof

theorem indexOf_append_cons_self (l1 l2 : List String) (i : String) (h : i ∉ l1) :
    (l1 ++ i :: l2).indexOf i = l1.length := by
  induction l1 with
  | nil => simp
  | cons d ds ih =>
    have hdi : i ≠ d := fun he => h (he ▸ List.mem_cons_self d ds)
    rw [List.cons_append, List.indexOf_cons_ne _ (Ne.symm hdi),
      ih (fun hm => h (List.mem_cons_of_mem d hm))]
    rfl

theorem mem_of_indexOf_lt (l1 l2 : List String) (k : String)
    (h : (l1 ++ l2).indexOf k < l1.length) : k ∈ l1 := by
  induction l1 with
  | nil => simp at h
  | cons d ds ih =>
    by_cases hk : k = d
    · exact hk ▸ List.mem_cons_self d ds
    · rw [List.cons_append, List.indexOf_cons_ne _ (Ne.symm hk), List.length_cons] at h
      have h2 : (ds ++ l2).indexOf k < ds.length := by omega
      exact List.mem_cons_of_mem d (ih h2)

theorem indexOf_append_of_mem (l1 l2 : List String) (k : String) (h : k ∈ l1) :
    (l1 ++ l2).indexOf k = l1.indexOf k := by
  induction l1 with
  | nil => cases h
  | cons d ds ih =>
    by_cases hk : k = d
    · subst hk
      rw [List.cons_append, List.indexOf_cons_self, List.indexOf_cons_self]
    · rw [List.cons_append, List.indexOf_cons_ne _ (Ne.symm hk),
        List.indexOf_cons_ne _ (Ne.symm hk), ih (List.mem_of_ne_of_mem hk h)]

theorem mem_resolvableEdges_intro {ts : List Task} {t : Task} {pid : String}
    (ht : t ∈ ts) (hpid : pid ∈ t.deps) (hid : pid ∈ ts.map (·.id)) :
    (pid, t.id) ∈ resolvableEdges ts := by
  unfold resolvableEdges
  rw [List.mem_flatMap]
  refine ⟨t, ht, ?_⟩
  rw [List.mem_map]
  exact ⟨pid, List.mem_filter.mpr ⟨hpid, by simpa using hid⟩, rfl⟩

theorem mapGet_mem_ids {ts : List Task} {k : String} {t : Task}
    (h : mapGet ts k = some t) : k ∈ ts.map (·.id) := by
  obtain ⟨hm, hid⟩ := mapGet_eq_some h
  exact List.mem_map.mpr ⟨t, hm, hid⟩

theorem mapGet_update_ne (cur : List Task) (i j : String) (hne : j ≠ i)
    (F : Task → Task) (hF : ∀ u, (F u).id = u.id) :
    mapGet (cur.map (fun u => if u.id = i then F u else u)) j = mapGet cur j := by
  unfold mapGet
  rw [List.foldl_map]
  have : ∀ (acc : Option Task),
      cur.foldl (fun acc u =>
        if (if u.id = i then F u else u).id = j then some (if u.id = i then F u else u)
        else acc) acc
      = cur.foldl (fun acc u => if u.id = j then some u else acc) acc := by
    intro acc
    induction cur generalizing acc with
    | nil => rfl
    | cons u cur ih =>
      rw [List.foldl_cons, List.foldl_cons]
      by_cases hu : u.id = i
      · rw [if_pos hu]
        have h2 : (F u).id = u.id := hF u
        have h3 : ¬((F u).id = j) := by rw [h2, hu]; exact fun he => hne he.symm
        have h4 : ¬(u.id = j) := by rw [hu]; exact fun he => hne he.symm
        rw [if_neg h3, if_neg h4]
        exact ih acc
      · rw [if_neg hu]
        exact ih _
  exact this none

theorem mapGet_update_self (cur : List Task) (i : String)
    (F : Task → Task) (hF : ∀ u, (F u).id = u.id) :
    mapGet (cur.map (fun u => if u.id = i then F u else u)) i
      = (mapGet cur i).map F := by
  unfold mapGet
  rw [List.foldl_map]
  have key : ∀ (acc2 : Option Task),
      cur.foldl (fun acc u =>
        if (if u.id = i then F u else u).id = i then some (if u.id = i then F u else u)
        else acc) (acc2.map F)
      = (cur.foldl (fun acc u => if u.id = i then some u else acc) acc2).map F := by
    intro acc2
    induction cur generalizing acc2 with
    | nil => rfl
    | cons u cur ih =>
      rw [List.foldl_cons, List.foldl_cons]
      by_cases hu : u.id = i
      · rw [if_pos hu]
        have h2 : (F u).id = i := by rw [hF u, hu]
        rw [if_pos h2, if_pos hu]
        exact ih (some u)
      · rw [if_neg hu]
        have h2 : ¬(u.id = i) := hu
        rw [if_neg h2, if_neg h2]
        exact ih acc2
  exact key none

theorem forall₂_ids {cur ts : List Task}
    (h : List.Forall₂ (fun a b => a.id = b.id ∧ a.deps = b.deps) cur ts) :
    cur.map (·.id) = ts.map (·.id) := by
  induction h with
  | nil => rfl
  | cons hab htail ih =>
    rw [List.map_cons, List.map_cons, hab.1, ih]

theorem shape_mapGet_go {cur ts : List Task}
    (hsh : List.Forall₂ (fun a b => a.id = b.id ∧ a.deps = b.deps) cur ts) (k : String) :
    ∀ (acc1 acc2 : Option Task),
      ((acc1 = none ∧ acc2 = none) ∨
        (∃ a b, acc1 = some a ∧ acc2 = some b ∧ a.id = b.id ∧ a.deps = b.deps)) →
      ((cur.foldl (fun acc t => if t.id = k then some t else acc) acc1 = none ∧
        ts.foldl (fun acc t => if t.id = k then some t else acc) acc2 = none) ∨
        (∃ a b, cur.foldl (fun acc t => if t.id = k then some t else acc) acc1 = some a ∧
          ts.foldl (fun acc t => if t.id = k then some t else acc) acc2 = some b ∧
          a.id = b.id ∧ a.deps = b.deps)) := by
  induction hsh with
  | nil => intro acc1 acc2 h; exact h
  | cons hab htail ih =>
    intro acc1 acc2 hacc
    rw [List.foldl_cons, List.foldl_cons]
    rename_i a b l1 l2
    apply ih
    by_cases hk : a.id = k
    · rw [if_pos hk, if_pos (hab.1 ▸ hk)]
      exact Or.inr ⟨a, b, rfl, rfl, hab.1, hab.2⟩
    · rw [if_neg hk, if_neg (fun hb => hk (hab.1 ▸ hb))]
      exact hacc

theorem shape_mapGet {cur ts : List Task}
    (hsh : List.Forall₂ (fun a b => a.id = b.id ∧ a.deps = b.deps) cur ts)
    {k : String} {t' : Task} (h : mapGet cur k = some t') :
    ∃ t0, mapGet ts k = some t0 ∧ t'.id = t0.id ∧ t'.deps = t0.deps := by
  have := shape_mapGet_go hsh k none none (Or.inl ⟨rfl, rfl⟩)
  unfold mapGet at h ⊢
  rcases this with ⟨h1, -⟩ | ⟨a, b, h1, h2, h3, h4⟩
  · rw [h] at h1
    cases h1
  · rw [h] at h1
    obtain rfl := Option.some.inj h1
    exact ⟨b, h2, h3, h4⟩

-- ## A task list already satisfying the schedule is a fixed point

theorem autoScheduleStep_fixed (ts1 : List Task) (mn mx : Int)
    (hpost : ∀ t ∈ ts1, ∀ pid ∈ t.deps, ∀ p, mapGet ts1 pid = some p →
      p.«end» ≤ t.start) (i : String) :
    autoScheduleStep mn mx ts1 i = ts1 := by
  cases hm : mapGet ts1 i with
  | none => simp [autoScheduleStep, hm]
  | some t =>
    have ht : t ∈ ts1 := (mapGet_eq_some hm).1
    have hle : maxDepEnd ts1 t.deps t.start ≤ t.start := by
      rw [maxDepEnd_eq_fold]
      rcases foldl_max_cases (fun e => e) (resolvedEndsOf ts1 t.deps) t.start
        with hc | ⟨e, he, hc⟩
      · rw [hc]
      · obtain ⟨pid, hpid, p, hp, hpe⟩ := mem_resolvedEndsOf.mp he
        rw [hc, ← hpe]
        exact hpost t ht pid hpid p hp
    simp only [autoScheduleStep, hm]
    rw [if_neg (by omega)]

theorem autoSchedule_fixed_go (ts1 : List Task) (mn mx : Int)
    (hpost : ∀ t ∈ ts1, ∀ pid ∈ t.deps, ∀ p, mapGet ts1 pid = some p →
      p.«end» ≤ t.start) (order : List String) :
    order.foldl (autoScheduleStep mn mx) ts1 = ts1 := by
  induction order with
  | nil => rfl
  | cons i order ih =>
    rw [List.foldl_cons, autoScheduleStep_fixed ts1 mn mx hpost i, ih]

theorem autoSchedule_fixed (ts1 : List Task) (mn mx : Int)
    (hpost : ∀ t ∈ ts1, ∀ pid ∈ t.deps, ∀ p, mapGet ts1 pid = some p →
      p.«end» ≤ t.start) :
    autoSchedule ts1 mn mx = ts1 :=
  autoSchedule_fixed_go ts1 mn mx hpost (topoSort ts1)

-- ## Specialised update-lookup lemmas for the auto-schedule step

theorem mapGet_sched_ne (cur : List Task) (i j : String) (hne : j ≠ i) (A B : Int) :
    mapGet (cur.map (fun u =>
      if u.id = i then { u with start := A, «end» := B } else u)) j = mapGet cur j :=
  mapGet_update_ne cur i j hne (fun u => { u with start := A, «end» := B })
    (fun _ => rfl)

theorem mapGet_sched_self (cur : List Task) (i : String) (A B : Int) :
    mapGet (cur.map (fun u =>
      if u.id = i then { u with start := A, «end» := B } else u)) i
      = (mapGet cur i).map (fun u => { u with start := A, «end» := B }) :=
  mapGet_update_self cur i (fun u => { u with start := A, «end» := B })
    (fun _ => rfl)

theorem forall₂_sched {cur ts : List Task}
    (h : List.Forall₂ (fun a b => a.id = b.id ∧ a.deps = b.deps) cur ts)
    (i : String) (A B : Int) :
    List.Forall₂ (fun a b => a.id = b.id ∧ a.deps = b.deps)
      (cur.map (fun u => if u.id = i then { u with start := A, «end» := B } else u))
      ts := by
  induction h with
  | nil => exact List.Forall₂.nil
  | cons hab htail ih =>
    rename_i a b l1 l2
    rw [List.map_cons]
    refine List.Forall₂.cons ?_ ih
    by_cases hu : a.id = i
    · rw [if_pos hu]
      exact ⟨hab.1, hab.2⟩
    · rw [if_neg hu]
      exact hab

-- ## Run 1 establishes the scheduled postcondition

theorem autoSchedule_go_post (ts : List Task) (mn mx : Int)
    (hmn : ∀ t ∈ ts, mn + 7 ≤ t.start)
    (order : List String)
    (hord : ∀ e ∈ resolvableEdges ts, order.indexOf e.1 < order.indexOf e.2)
    (hond : order.Nodup) :
    ∀ (rest done : List String) (cur : List Task),
      order = done ++ rest →
      List.Forall₂ (fun a b => a.id = b.id ∧ a.deps = b.deps) cur ts →
      (∀ k, k ∉ done → mapGet cur k = mapGet ts k) →
      (∀ k ∈ done, ∀ t', mapGet cur k = some t' →
        ∀ pid ∈ t'.deps, ∀ p, mapGet cur pid = some p → p.«end» ≤ t'.start) →
      (∀ u ∈ cur, u.«end» ≤ mx) →
      (List.Forall₂ (fun a b => a.id = b.id ∧ a.deps = b.deps)
          (rest.foldl (autoScheduleStep mn mx) cur) ts ∧
        ∀ k ∈ done ++ rest, ∀ t',
          mapGet (rest.foldl (autoScheduleStep mn mx) cur) k = some t' →
          ∀ pid ∈ t'.deps, ∀ p,
            mapGet (rest.foldl (autoScheduleStep mn mx) cur) pid = some p →
            p.«end» ≤ t'.start) := by
  intro rest
  induction rest with
  | nil =>
    intro done cur horder hsh hb hc hd
    rw [List.foldl_nil]
    refine ⟨hsh, ?_⟩
    intro k hk
    rw [List.append_nil] at hk
    exact hc k hk
  | cons i rest2 ih =>
    intro done cur horder hsh hb hc hd
    rw [List.foldl_cons]
    have hi_not_done : i ∉ done := by
      intro hmem
      have h1 := hond
      rw [horder] at h1
      exact (List.nodup_append.mp h1).2.2 hmem (List.mem_cons_self i rest2)
    have hidx_i : order.indexOf i = done.length := by
      rw [horder]
      exact indexOf_append_cons_self done rest2 i hi_not_done
    have fact1 : ∀ k ∈ done, (i, k) ∈ resolvableEdges ts → False := by
      intro k hk he
      have h1 : order.indexOf i < order.indexOf k := hord (i, k) he
      have h3 : order.indexOf k < done.length := by
        rw [horder, indexOf_append_of_mem done (i :: rest2) k hk]
        exact List.indexOf_lt_length.mpr hk
      rw [hidx_i] at h1
      omega
    have fact3 : (i, i) ∉ resolvableEdges ts := by
      intro he
      have h1 : order.indexOf i < order.indexOf i := hord (i, i) he
      exact absurd h1 (lt_irrefl _)
    have horder2 : order = (done ++ [i]) ++ rest2 := by
      rw [horder, List.append_assoc, List.singleton_append]
    have hle : (done ++ [i]) ++ rest2 = done ++ i :: rest2 := by
      rw [List.append_assoc, List.singleton_append]
    cases hm : mapGet cur i with
    | none =>
      have hstep : autoScheduleStep mn mx cur i = cur := by
        simp [autoScheduleStep, hm]
      rw [hstep, ← hle]
      refine ih (done ++ [i]) cur horder2 hsh ?_ ?_ hd
      · intro k hk
        exact hb k (fun hkd => hk (List.mem_append.mpr (Or.inl hkd)))
      · intro k hk t' ht'
        rcases List.mem_append.mp hk with hk2 | hk2
        · exact hc k hk2 t' ht'
        · rw [List.mem_singleton] at hk2
          subst hk2
          rw [ht'] at hm
          cases hm
    | some t =>
      have ht_orig : mapGet ts i = some t := by
        rw [← hb i hi_not_done]
        exact hm
      have ht_mem : t ∈ ts := (mapGet_eq_some ht_orig).1
      have hfold0 : t.start ≤ maxDepEnd cur t.deps t.start := by
        rw [maxDepEnd_eq_fold]
        exact foldl_max_init_le (fun e => e) (resolvedEndsOf cur t.deps) t.start
      have hfoldmem : ∀ pid ∈ t.deps, ∀ p, mapGet cur pid = some p →
          p.«end» ≤ maxDepEnd cur t.deps t.start := by
        intro pid hpid p hp
        rw [maxDepEnd_eq_fold]
        exact foldl_max_mem_le (fun e => e) (resolvedEndsOf cur t.deps) t.start _
          (mem_resolvedEndsOf.mpr ⟨pid, hpid, p, hp, rfl⟩)
      by_cases hfire : t.start < maxDepEnd cur t.deps t.start
      · have hlemx : maxDepEnd cur t.deps t.start ≤ mx := by
          rw [maxDepEnd_eq_fold]
          rcases foldl_max_cases (fun e => e) (resolvedEndsOf cur t.deps) t.start
            with hcs | ⟨e, he, hcs⟩
          · rw [maxDepEnd_eq_fold] at hfire
            omega
          · rw [hcs]
            obtain ⟨pid, hpid, p, hp, hpe⟩ := mem_resolvedEndsOf.mp he
            rw [← hpe]
            exact hd p (mapGet_eq_some hp).1
        have hmnlt : mn < maxDepEnd cur t.deps t.start := by
          have := hmn t ht_mem
          omega
        have hstep : autoScheduleStep mn mx cur i
            = cur.map (fun u => if u.id = i then
                { u with
                  start := clampDateStr (maxDepEnd cur t.deps t.start) mn mx,
                  «end» := clampDateStr (maxDepEnd cur t.deps t.start
                    + (t.«end» - t.start)) mn mx }
              else u) := by
          simp only [autoScheduleStep, hm]
          rw [if_pos hfire]
        have hclampA : clampDateStr (maxDepEnd cur t.deps t.start) mn mx
            = maxDepEnd cur t.deps t.start :=
          clampDateStr_eq_self (by omega) hlemx
        rw [hstep, ← hle]
        refine ih (done ++ [i]) _ horder2 (forall₂_sched hsh i _ _) ?_ ?_ ?_
        · intro k hk
          have hki : k ≠ i := fun he =>
            hk (he ▸ List.mem_append.mpr (Or.inr (List.mem_singleton.mpr rfl)))
          rw [mapGet_sched_ne cur i k hki]
          exact hb k (fun hkd => hk (List.mem_append.mpr (Or.inl hkd)))
        · intro k hk t' ht'
          rcases List.mem_append.mp hk with hk2 | hk2
          · have hki : k ≠ i := fun he => hi_not_done (he ▸ hk2)
            rw [mapGet_sched_ne cur i k hki] at ht'
            intro pid hpid p hp
            by_cases hpidi : pid = i
            · exfalso
              subst hpidi
              obtain ⟨t0, ht0, hid0, hdeps0⟩ := shape_mapGet hsh ht'
              refine fact1 k hk2 ?_
              have hkid : t0.id = k := (mapGet_eq_some ht0).2
              rw [← hkid]
              exact mem_resolvableEdges_intro (mapGet_eq_some ht0).1
                (hdeps0 ▸ hpid) (mapGet_mem_ids ht_orig)
            · rw [mapGet_sched_ne cur i pid hpidi] at hp
              exact hc k hk2 t' ht' pid hpid p hp
          · rw [List.mem_singleton] at hk2
            subst hk2
            rw [mapGet_sched_self cur k, hm] at ht'
            obtain rfl := Option.some.inj ht'
            intro pid hpid p hp
            simp only [] at hpid ⊢
            by_cases hpidi : pid = k
            · exfalso
              subst hpidi
              refine fact3 ?_
              have hkid : t.id = pid := (mapGet_eq_some ht_orig).2
              have hedge := mem_resolvableEdges_intro ht_mem hpid (mapGet_mem_ids ht_orig)
              rw [hkid] at hedge
              exact hedge
            · rw [mapGet_sched_ne cur k pid hpidi] at hp
              rw [hclampA]
              exact hfoldmem pid hpid p hp
        · intro u hu
          obtain ⟨v, hv, rfl⟩ := List.mem_map.mp hu
          by_cases hvi : v.id = i
          · rw [if_pos hvi]
            exact clampDateStr_le_right (by omega)
          · rw [if_neg hvi]
            exact hd v hv
      · have hstep : autoScheduleStep mn mx cur i = cur := by
          simp only [autoScheduleStep, hm]
          rw [if_neg hfire]
        rw [hstep, ← hle]
        refine ih (done ++ [i]) cur horder2 hsh ?_ ?_ hd
        · intro k hk
          exact hb k (fun hkd => hk (List.mem_append.mpr (Or.inl hkd)))
        · intro k hk t' ht'
          rcases List.mem_append.mp hk with hk2 | hk2
          · exact hc k hk2 t' ht'
          · rw [List.mem_singleton] at hk2
            subst hk2
            rw [ht'] at hm
            obtain rfl := Option.some.inj hm
            intro pid hpid p hp
            have := hfoldmem pid hpid p hp
            omega

theorem autoSchedule_post (ts : List Task) (today : Int)
    (hnd : (ts.map (·.id)).Nodup) (hac : Acyclic ts) :
    ∀ t ∈ autoSchedule ts (rangeOfTasks ts today).1 (rangeOfTasks ts today).2,
      ∀ pid ∈ t.deps, ∀ p,
        mapGet (autoSchedule ts (rangeOfTasks ts today).1 (rangeOfTasks ts today).2) pid
          = some p → p.«end» ≤ t.start := by
  obtain ⟨hperm, hord⟩ := topoSort_spec ts hnd hac
  have hond : (topoSort ts).Nodup := hperm.nodup_iff.mpr hnd
  have hmn : ∀ t ∈ ts, (rangeOfTasks ts today).1 + 7 ≤ t.start := by
    intro t ht
    have := range_fst_le ht today
    omega
  have hgo := autoSchedule_go_post ts (rangeOfTasks ts today).1
    (rangeOfTasks ts today).2 hmn
    (topoSort ts) hord hond (topoSort ts) [] ts rfl
    (List.forall₂_same.mpr (fun a _ => ⟨rfl, rfl⟩))
    (fun _ _ => rfl)
    (fun k hk => absurd hk (List.not_mem_nil k))
    (fun u hu => by have := range_snd_ge hu today; omega)
  have hAS : autoSchedule ts (rangeOfTasks ts today).1 (rangeOfTasks ts today).2
      = (topoSort ts).foldl
          (autoScheduleStep (rangeOfTasks ts today).1 (rangeOfTasks ts today).2) ts := rfl
  rw [← hAS] at hgo
  intro t ht pid hpid p hp
  have hids : (autoSchedule ts (rangeOfTasks ts today).1
      (rangeOfTasks ts today).2).map (·.id) = ts.map (·.id) := forall₂_ids hgo.1
  have htid : t.id ∈ topoSort ts := by
    rw [hperm.mem_iff, ← hids]
    exact List.mem_map.mpr ⟨t, ht, rfl⟩
  have hlook : mapGet (autoSchedule ts (rangeOfTasks ts today).1
      (rangeOfTasks ts today).2) t.id = some t :=
    mapGet_self_of_nodup (by rw [hids]; exact hnd) ht
  exact hgo.2 t.id (by simpa using htid) t hlook pid hpid p hp

-- ## Claim C5

/-- C5: for every task list with distinct ids whose resolvable-predecessor
graph is acyclic, running the auto-scheduler twice in succession — with
the visible range re-derived from the task list before each run — yields
the same task list as running it once. -/
theorem autoSchedule_idempotent (ts : List Task) (today : Int)
    (hnd : (ts.map (·.id)).Nodup) (hac : Acyclic ts) :
    autoSchedule
        (autoSchedule ts (rangeOfTasks ts today).1 (rangeOfTasks ts today).2)
        (rangeOfTasks (autoSchedule ts (rangeOfTasks ts today).1
          (rangeOfTasks ts today).2) today).1
        (rangeOfTasks (autoSchedule ts (rangeOfTasks ts today).1
          (rangeOfTasks ts today).2) today).2
      = autoSchedule ts (rangeOfTasks ts today).1 (rangeOfTasks ts today).2 :=
  autoSchedule_fixed _ _ _ (autoSchedule_post ts today hnd hac)

/-- C5, witness: idempotence evaluated on `chainTasks` (whose second task
actually moves during the first run). -/
theorem autoSchedule_idempotent_witness :
    autoSchedule
        (autoSchedule chainTasks (rangeOfTasks chainTasks 0).1
          (rangeOfTasks chainTasks 0).2)
        (rangeOfTasks (autoSchedule chainTasks (rangeOfTasks chainTasks 0).1
          (rangeOfTasks chainTasks 0).2) 0).1
        (rangeOfTasks (autoSchedule chainTasks (rangeOfTasks chainTasks 0).1
          (rangeOfTasks chainTasks 0).2) 0).2
      = autoSchedule chainTasks (rangeOfTasks chainTasks 0).1
          (rangeOfTasks chainTasks 0).2 :=
  autoSchedule_idempotent chainTasks 0 (by decide) chainTasks_acyclic

end Gantt
